import Mathlib

/-!
# A shallow embedding of the `file-system-browser` engine

This file models the filesystem engine of `src/src/fs.ts` (entries stored in a
key-value store keyed by normalized absolute path, symlink resolution, hard-link
groups, recursive remove/rename, descriptors, watch notifications and the
plugin router) and proves properties of the model.

Modelling conventions:
* JS strings are `List Char`; JS byte buffers are `List Nat`.
* The IndexedDB store (`src/src/db.ts`, extended in the unnamed db module with
  `symlink`/`hardLinkKey` support) is a list of entries with unique paths;
  `put` upserts, index lookups become filters.
* `Date.now()` is passed in as an explicit `now : Nat` argument.
* Async functions that may throw return a `Res α`: the store and the emitted
  watch events *at the moment the function returns or throws*, plus an
  `Except Err α`.  A thrown error therefore still carries the mutations
  applied so far, exactly like a JS exception does.
* The unbounded JS recursions (`removeInternal`, `renameInternal`) take fuel;
  `Err.efuel` marks executions on which the JS recursion would never
  terminate.  The public wrappers pass `s.length + 1` fuel, which is shown to
  be sufficient on well-formed stores.
-/

namespace FsBrowser

/-- JS strings are modelled as lists of characters. -/
abbrev Path := List Char

def rootPath : Path := ['/']

/-- `norm` from `fs.ts`: ensure a leading '/', strip one trailing '/' unless
the path is exactly "/". -/
def norm (p : Path) : Path :=
  let p1 := if p.head? = some '/' then p else '/' :: p
  if p1 = rootPath then p1
  else if p1.getLast? = some '/' then p1.dropLast else p1

/-- `String.prototype.lastIndexOf` for a single character. -/
def lastIndexOf (c : Char) : List Char → Option Nat
  | [] => none
  | x :: xs =>
    match lastIndexOf c xs with
    | some i => some (i + 1)
    | none => if x = c then some 0 else none

/-- `parentOf` from `fs.ts`. -/
def parentOf (p0 : Path) : Path :=
  let p := norm p0
  if p = rootPath then []
  else
    match lastIndexOf '/' p with
    | some 0 => rootPath
    | some i => p.take i
    | none => p.dropLast

/-- `baseOf` from `fs.ts`. -/
def baseOf (p0 : Path) : Path :=
  let p := norm p0
  if p = rootPath then []
  else
    match lastIndexOf '/' p with
    | some i => p.drop (i + 1)
    | none => p

/-- The directory marker of `d`: "/" for the root, `d ++ "/"` otherwise.
A path strictly inside directory `d` is one extending `dirP d`. -/
def dirP (d : Path) : Path := if d = rootPath then d else d ++ ['/']

/-- `q` lies in the subtree rooted at `d` (including `d` itself). -/
def inSub (d q : Path) : Prop := q = d ∨ dirP d <+: q

/-- `q` lies strictly inside the directory `d`. -/
def strictSub (d q : Path) : Prop := dirP d <+: q ∧ q ≠ d

instance (d q : Path) : Decidable (inSub d q) := by
  unfold inSub; infer_instance

instance (d q : Path) : Decidable (strictSub d q) := by
  unfold strictSub; infer_instance

/-- Entry type tag: `'file' | 'directory' | 'symlink'`. -/
inductive EType where
  | file
  | directory
  | symlink
deriving DecidableEq, Repr

/-- `FileEntry` from the db module (the variant with symlink and hard-link
support). -/
structure Entry where
  path : Path
  name : Path
  type : EType
  size : Nat
  content : Option (List Nat) := none
  mimeType : Option (List Char) := none
  linkTarget : Option Path := none
  hardLinkKey : Option Path := none
  createdAt : Nat
  modifiedAt : Nat
  parentPath : Path
deriving DecidableEq, Repr

abbrev Store := List Entry

/-- `db.get`: lookup by primary key `path`. -/
def dbGet : Store → Path → Option Entry
  | [], _ => none
  | e :: s, p => if e.path = p then some e else dbGet s p

/-- `db.put`: upsert by primary key `path`. -/
def dbPut : Store → Entry → Store
  | [], e => [e]
  | x :: s, e => if x.path = e.path then e :: s else x :: dbPut s e

/-- `db.delete`: remove the record with the given path. -/
def dbDelete (s : Store) (p : Path) : Store :=
  s.filter (fun e => decide (e.path ≠ p))

/-- `db.getByParentPath`: the `parentPath` index. -/
def getByParentPath (s : Store) (pp : Path) : List Entry :=
  s.filter (fun e => decide (e.parentPath = pp))

/-- `db.getByHardLinkKey`: the `hardLinkKey` index. -/
def getByHardLinkKey (s : Store) (k : Path) : List Entry :=
  s.filter (fun e => decide (e.hardLinkKey = some k))

/-- JS truthiness of an optional string: `undefined` and `""` are falsy. -/
def jsStr : Option Path → Option Path
  | none => none
  | some t => if t = [] then none else some t

/-- JS `a || b` where `a` is an optional number (`0` and `undefined` falsy). -/
def jsOrNat (a : Option Nat) (b : Nat) : Nat :=
  match a with
  | none => b
  | some n => if n = 0 then b else n

/-- The filesystem error taxonomy (symbolic codes of the thrown messages). -/
inductive Err where
  | enoent
  | enotdir
  | eexist
  | eisdir
  | enotempty
  | eloop
  | einval
  | ebusy
  | eperm
  | exdev
  | ebadf
  | erange
  | eambiguous
  | efuel
deriving DecidableEq, Repr

inductive WType where
  | rename
  | change
deriving DecidableEq, Repr

/-- One call of `emitWatch(path, type, prev, next)`. -/
structure WEvent where
  path : Path
  wtype : WType
  prev : Option Entry
  next : Option Entry
deriving DecidableEq, Repr

/-- A paired-snapshot (`watchFile`) listener registered on `P` is invoked by
`emitWatch` exactly when the event is at `P` and both `prev` and `next`
snapshots are present (`if (wf && prev && next)` in `emitWatch`). -/
def firesPaired (evs : List WEvent) (P : Path) : Bool :=
  evs.any (fun e => decide (e.path = P) && e.prev.isSome && e.next.isSome)

/-- Result of a mutating operation: the store and emitted events at the time
the operation returned or threw, plus its outcome. -/
structure Res (α : Type) where
  store : Store
  events : List WEvent
  val : Except Err α
deriving Repr

/-- `resolveSymlink`'s loop: `fuel` counts the remaining iterations of
`for (let i = 0; i < 10; i++)` and `i` the hops already followed. -/
def resolveLoop (s : Store) (allow : Bool) :
    Nat → Nat → Path → List Path → Except Err (Path × Option Entry)
  | 0, _, _, _ => .error .eloop
  | fuel + 1, i, p, seen =>
    match dbGet s p with
    | none =>
      -- the two branches of `if (allowMissingTarget && i > 0)` coincide
      if allow = true ∧ 0 < i then .ok (p, none) else .ok (p, none)
    | some e =>
      if e.type = .symlink then
        match jsStr e.linkTarget with
        | none => .error .einval
        | some t =>
          let np := norm t
          if np ∈ seen then .error .eloop
          else resolveLoop s allow fuel (i + 1) np (np :: seen)
      else .ok (p, some e)

/-- `resolveSymlink(path, allowMissingTarget)`. -/
def resolveSymlink (s : Store) (path : Path) (allow : Bool) :
    Except Err (Path × Option Entry) :=
  resolveLoop s allow 10 0 (norm path) []

/-- One resolution hop: defined exactly when the entry at `p` is a symlink
with a truthy target; yields the normalized target. -/
def symStep (s : Store) (p : Path) : Option Path :=
  match dbGet s p with
  | none => none
  | some e =>
    if e.type = .symlink then
      match jsStr e.linkTarget with
      | none => none
      | some t => some (norm t)
    else none

/-- The shared `if (parent) { p = get(parent); if (!p) ENOENT; if (p.type !==
'directory') ENOTDIR }` validation. -/
def dirCheck (s : Store) (parent : Path) : Except Err Unit :=
  if parent = [] then .ok ()
  else
    match dbGet s parent with
    | none => .error .enoent
    | some pe => if pe.type = .directory then .ok () else .error .enotdir

def octetStream : List Char := "application/octet-stream".toList

/-- The hard-link propagation loop of `writeFileInternal`. -/
def propagate (now : Nat) (entry : Entry) :
    List Entry → Store → Store × List WEvent
  | [], s => (s, [])
  | sib :: rest, s =>
    if sib.path = entry.path then propagate now entry rest s
    else if sib.type ≠ EType.file then propagate now entry rest s
    else
      let updated : Entry :=
        { sib with size := entry.size, content := entry.content,
                   mimeType := entry.mimeType, modifiedAt := now }
      let r := propagate now entry rest (dbPut s updated)
      (r.1, ⟨sib.path, .change, some sib, some updated⟩ :: r.2)

/-- `writeFileInternal(path, data)`. -/
def writeFileInternal (now : Nat) (s : Store) (path0 : Path) (data : List Nat) :
    Res Unit :=
  match resolveSymlink s path0 true with
  | .error e => ⟨s, [], .error e⟩
  | .ok (rp, _) =>
    let path := norm rp
    let parent := parentOf path
    match dirCheck s parent with
    | .error e => ⟨s, [], .error e⟩
    | .ok _ =>
      let prev := dbGet s path
      let entry : Entry :=
        { path := path, name := baseOf path, type := .file,
          size := data.length, content := some data,
          mimeType := some octetStream, linkTarget := none,
          createdAt := jsOrNat (prev.map (·.createdAt)) now,
          modifiedAt := now, parentPath := parent,
          hardLinkKey := prev.bind (·.hardLinkKey) }
      let s1 := dbPut s entry
      let ev1 : WEvent :=
        ⟨path, if prev.isSome then .change else .rename, prev, some entry⟩
      match jsStr entry.hardLinkKey with
      | none => ⟨s1, [ev1], .ok ()⟩
      | some k =>
        let r := propagate now entry (getByHardLinkKey s1 k) s1
        ⟨r.1, ev1 :: r.2, .ok ()⟩

/-- `readFileInternal(path)`. -/
def readFileInternal (s : Store) (path : Path) : Except Err (List Nat) :=
  match resolveSymlink s path false with
  | .error e => .error e
  | .ok (_, none) => .error .enoent
  | .ok (_, some e) =>
    if e.type ≠ EType.file then .error .eisdir
    else .ok (match e.content with | some c => c | none => [])

/-- Sequencing of two steps of an `async` body: a thrown error propagates,
keeping the mutations and events applied so far. -/
def seqRes (r : Res Unit) (k : Store → Res Unit) : Res Unit :=
  match r.val with
  | .error e => ⟨r.store, r.events, .error e⟩
  | .ok _ =>
    let r2 := k r.store
    ⟨r2.store, r.events ++ r2.events, r2.val⟩

/-- The trailing `emitWatch` of an operation: emitted only if the preceding
steps succeeded. -/
def emitAfter (step : Res Unit) (ev : WEvent) : Res Unit :=
  match step.val with
  | .error e => ⟨step.store, step.events, .error e⟩
  | .ok _ => ⟨step.store, step.events ++ [ev], .ok ()⟩

/-- The `for (const c of children) await removeInternal(c.path, true, force)`
loop, parameterized by the recursive call. -/
def remChildren (f : Store → Path → Res Unit) :
    List Entry → Store → Res Unit
  | [], s => ⟨s, [], .ok ()⟩
  | c :: cs, s => seqRes (f s c.path) (remChildren f cs)

/-- After the children loop: `await db.delete(path); emitWatch(path,
'rename', entry, null)`, reached only if no child deletion threw. -/
def finishRemove (step : Res Unit) (path : Path) (entry : Entry) : Res Unit :=
  match step.val with
  | .error e => ⟨step.store, step.events, .error e⟩
  | .ok _ =>
    ⟨dbDelete step.store path,
     step.events ++ [⟨path, WType.rename, some entry, none⟩], .ok ()⟩

/-- `removeInternal(path, recursive, force)`. -/
def removeInternal (now : Nat) :
    Nat → Store → Path → Bool → Bool → Res Unit
  | 0, s, _, _, _ => ⟨s, [], .error .efuel⟩
  | fuel + 1, s, path0, recursive, force =>
    let path := norm path0
    if path = rootPath then ⟨s, [], .error .ebusy⟩
    else
      match dbGet s path with
      | none => if force then ⟨s, [], .ok ()⟩ else ⟨s, [], .error .enoent⟩
      | some entry =>
        let step :=
          if entry.type = .directory then
            let children := getByParentPath s path
            if children ≠ [] ∧ recursive = false then ⟨s, [], .error .enotempty⟩
            else remChildren (fun t q => removeInternal now fuel t q true force) children s
          else ⟨s, [], .ok ()⟩
        finishRemove step path entry

/-- `rm` as exposed through `corePromises.rm`: the recursion of the JS
implementation is unbounded; `s.length + 1` fuel is enough on well-formed
stores. -/
def rm (now : Nat) (s : Store) (path : Path) (recursive force : Bool) : Res Unit :=
  removeInternal now (s.length + 1) s path recursive force

/-- The `for (const child of children)` loop of `renameInternal`,
parameterized by the recursive call. -/
def renChildren (f : Store → Path → Path → Res Unit) (old new : Path) :
    List Entry → Store → Res Unit
  | [], s => ⟨s, [], .ok ()⟩
  | c :: cs, s =>
    seqRes (f s c.path (new ++ c.path.drop old.length)) (renChildren f old new cs)

/-- `renameInternal(oldPath, newPath)`. -/
def renameInternal (now : Nat) :
    Nat → Store → Path → Path → Res Unit
  | 0, s, _, _ => ⟨s, [], .error .efuel⟩
  | fuel + 1, s, oldPath0, newPath0 =>
    let oldPath := norm oldPath0
    let newPath := norm newPath0
    if oldPath = rootPath then ⟨s, [], .error .exdev⟩
    else
      match dbGet s oldPath with
      | none => ⟨s, [], .error .enoent⟩
      | some entry =>
        let destParent := parentOf newPath
        match dirCheck s destParent with
        | .error e => ⟨s, [], .error e⟩
        | .ok _ =>
          let moved : Entry :=
            { entry with path := newPath, name := baseOf newPath,
                         modifiedAt := now, parentPath := destParent }
          let s1 := dbDelete (dbPut s moved) oldPath
          let step :=
            if entry.type = .directory then
              renChildren (fun t a b => renameInternal now fuel t a b)
                oldPath newPath (getByParentPath s1 oldPath) s1
            else ⟨s1, [], .ok ()⟩
          emitAfter step ⟨oldPath, WType.rename, some entry, some moved⟩

/-- `rename` as exposed through `corePromises.rename`. -/
def rename (now : Nat) (s : Store) (oldPath newPath : Path) : Res Unit :=
  renameInternal now (s.length + 1) s oldPath newPath

/-- `corePromises.symlink(target, path)`. -/
def symlink (now : Nat) (s : Store) (target0 path0 : Path) : Res Unit :=
  let target := norm target0
  let path := norm path0
  if path = rootPath then ⟨s, [], .error .eperm⟩
  else
    let parent := parentOf path
    match dirCheck s parent with
    | .error e => ⟨s, [], .error e⟩
    | .ok _ =>
      match dbGet s path with
      | some _ => ⟨s, [], .error .eexist⟩
      | none =>
        let entry : Entry :=
          { path := path, name := baseOf path, type := .symlink, size := 0,
            content := none, mimeType := none, linkTarget := some target,
            hardLinkKey := none, createdAt := now, modifiedAt := now,
            parentPath := parent }
        ⟨dbPut s entry, [⟨path, .rename, none, some entry⟩], .ok ()⟩

/-- `corePromises.link(existingPath, newPath)`. -/
def link (now : Nat) (s : Store) (existingPath0 newPath0 : Path) : Res Unit :=
  let existingPath := norm existingPath0
  let newPath := norm newPath0
  match resolveSymlink s existingPath false with
  | .error e => ⟨s, [], .error e⟩
  | .ok (_, none) => ⟨s, [], .error .enoent⟩
  | .ok (_, some e) =>
    if e.type ≠ EType.file then ⟨s, [], .error .eperm⟩
    else
      let parent := parentOf newPath
      match dirCheck s parent with
      | .error er => ⟨s, [], .error er⟩
      | .ok _ =>
        match dbGet s newPath with
        | some _ => ⟨s, [], .error .eexist⟩
        | none =>
          let key := match jsStr e.hardLinkKey with
            | some k => k
            | none => e.path
          let s1 :=
            if (jsStr e.hardLinkKey).isNone then
              dbPut s { e with hardLinkKey := some key }
            else s
          let newEntry : Entry :=
            { path := newPath, name := baseOf newPath, type := .file,
              size := e.size, content := e.content, mimeType := e.mimeType,
              hardLinkKey := some key, linkTarget := none,
              createdAt := now, modifiedAt := now, parentPath := parent }
          ⟨dbPut s1 newEntry, [⟨newPath, .rename, none, some newEntry⟩], .ok ()⟩

/-- `corePromises.nlink(path)`. -/
def nlink (s : Store) (path : Path) : Except Err Nat :=
  match resolveSymlink s path false with
  | .error e => .error e
  | .ok (_, none) => .ok 0
  | .ok (_, some e) =>
    if e.type ≠ EType.file then .ok 0
    else
      match jsStr e.hardLinkKey with
      | none => .ok 1
      | some k =>
        .ok (((getByHardLinkKey s k).filter
          (fun x => decide (x.type = EType.file))).length)

/-- The file-descriptor record (the plugin tag, used only for routing
descriptor calls back to a plugin, is not modelled). -/
structure FD where
  path : Path
  position : Nat
  flags : List Char
deriving DecidableEq, Repr

/-- The module-level `fdTable` and `nextFd` counter. -/
structure FdState where
  table : List (Nat × FD)
  next : Nat
deriving DecidableEq, Repr

def lookupFd (fds : FdState) (n : Nat) : Option FD :=
  (fds.table.find? (fun kv => decide (kv.1 = n))).map (·.2)

def allocateFd (fds : FdState) (path : Path) (flags : List Char) :
    Nat × FdState :=
  (fds.next, ⟨fds.table ++ [(fds.next, ⟨norm path, 0, flags⟩)], fds.next + 1⟩)

def setFdPos (fds : FdState) (n : Nat) (pos : Nat) : FdState :=
  ⟨fds.table.map (fun kv =>
     if kv.1 = n then (kv.1, { kv.2 with position := pos }) else kv),
   fds.next⟩

/-- `corePromises.open(path, flags)`: returns the allocated fd. -/
def openFile (now : Nat) (s : Store) (fds : FdState)
    (path0 : Path) (flags : List Char) : Res Nat × FdState :=
  match resolveSymlink s path0 true with
  | .error e => (⟨s, [], .error e⟩, fds)
  | .ok (rp, _) =>
    let path := norm rp
    let exist := dbGet s path
    let w : Res Unit :=
      if exist.isNone ∧ (flags.contains 'w' ∨ flags.contains 'a') then
        writeFileInternal now s path []
      else ⟨s, [], .ok ()⟩
    match w.val with
    | .error e => (⟨w.store, w.events, .error e⟩, fds)
    | .ok _ =>
      if exist.isNone ∧ flags.head? = some 'r' then
        (⟨w.store, w.events, .error .enoent⟩, fds)
      else
        let a := allocateFd fds path flags
        (⟨w.store, w.events, .ok a.1⟩, a.2)

/-- `data.set(toWrite, start)` on a buffer known to be long enough. -/
def splice (data : List Nat) (start : Nat) (tw : List Nat) : List Nat :=
  data.take start ++ tw ++ data.drop (start + tw.length)

/-- `await readFileInternal(fd.path).catch(() => new Uint8Array())`. -/
def fdLoad (s : Store) (p : Path) : List Nat :=
  match readFileInternal s p with
  | .ok d => d
  | .error _ => []

/-- Zero-extension of the buffer when it is shorter than `needed`. -/
def zeroExtend (data : List Nat) (needed : Nat) : List Nat :=
  if data.length < needed then
    data ++ List.replicate (needed - data.length) 0
  else data

/-- `length != null && offset != null ? buf.subarray(offset, offset + length)
: buf` (`subarray` clamps at the buffer end). -/
def fdToWrite (buf : List Nat) (offset length : Option Nat) : List Nat :=
  match length, offset with
  | some l, some o => (buf.drop o).take l
  | _, _ => buf

/-- `fdWrite(fd, buf, offset, length, position)` for a byte-buffer argument.
Returns the bytes written. -/
def fdWrite (now : Nat) (s : Store) (fds : FdState) (fdNum : Nat)
    (buf : List Nat) (offset length position : Option Nat) :
    Res Nat × FdState :=
  match lookupFd fds fdNum with
  | none => (⟨s, [], .error .ebadf⟩, fds)
  | some fd =>
    let data0 := fdLoad s fd.path
    let start := position.getD fd.position
    let data1 := zeroExtend data0 (start + length.getD buf.length)
    let toWrite := fdToWrite buf offset length
    if data1.length < start + toWrite.length then
      (⟨s, [], .error .erange⟩, fds)
    else
      let r := writeFileInternal now s fd.path (splice data1 start toWrite)
      match r.val with
      | .error e => (⟨r.store, r.events, .error e⟩, fds)
      | .ok _ =>
        let fds1 :=
          if position.isNone then setFdPos fds fdNum (start + toWrite.length)
          else fds
        (⟨r.store, r.events, .ok toWrite.length⟩, fds1)

/-- `corePromises.copyFile(src, dest)`. -/
def copyFile (now : Nat) (s : Store) (src dest : Path) : Res Unit :=
  match readFileInternal s src with
  | .error e => ⟨s, [], .error e⟩
  | .ok data => writeFileInternal now s dest data

/-- An active plugin instance: the `RegExp` is abstracted as a Boolean
predicate on paths; only the dual-path handlers needed here are modelled,
as state transformers on the engine state. -/
structure ActivePlugin where
  name : List Char
  matchFn : Path → Bool
  hRename : Option (Store → Path → Path → Res Unit) := none
  hLink : Option (Store → Path → Path → Res Unit) := none
  hCopyFile : Option (Store → Path → Path → Res Unit) := none

/-- `activePlugins.find(ap => normalizeAndTest(ap.match, p))`. -/
def findMatch (plugins : List ActivePlugin) (p : Path) : Option ActivePlugin :=
  plugins.find? (fun ap => ap.matchFn (norm p))

/-- `resolvePluginFromPaths(paths)`: `!!p` drops `undefined` and `""`. -/
def resolvePluginFromPaths (plugins : List ActivePlugin)
    (paths : List (Option Path)) : Except Err (Option ActivePlugin) :=
  let matched :=
    (paths.filterMap (fun p =>
       match p with
       | some q => if q = [] then none else some q
       | none => none)).filterMap (findMatch plugins)
  match matched with
  | [] => .ok none
  | first :: rest =>
    if rest.all (fun m => decide (m.name = first.name)) then .ok (some first)
    else .error .eambiguous

/-- The public `promises.rename`, dispatching through the plugin router. -/
def renamePub (now : Nat) (plugins : List ActivePlugin) (s : Store)
    (fds : FdState) (oldPath newPath : Path) : Res Unit × FdState :=
  match resolvePluginFromPaths plugins [some oldPath, some newPath] with
  | .error e => (⟨s, [], .error e⟩, fds)
  | .ok pl =>
    match pl.bind (·.hRename) with
    | some h => (h s oldPath newPath, fds)
    | none => (rename now s oldPath newPath, fds)

/-- The public `promises.link`. -/
def linkPub (now : Nat) (plugins : List ActivePlugin) (s : Store)
    (fds : FdState) (existingPath newPath : Path) : Res Unit × FdState :=
  match resolvePluginFromPaths plugins [some existingPath, some newPath] with
  | .error e => (⟨s, [], .error e⟩, fds)
  | .ok pl =>
    match pl.bind (·.hLink) with
    | some h => (h s existingPath newPath, fds)
    | none => (link now s existingPath newPath, fds)

/-- The public `promises.copyFile`. -/
def copyFilePub (now : Nat) (plugins : List ActivePlugin) (s : Store)
    (fds : FdState) (src dest : Path) : Res Unit × FdState :=
  match resolvePluginFromPaths plugins [some src, some dest] with
  | .error e => (⟨s, [], .error e⟩, fds)
  | .ok pl =>
    match pl.bind (·.hCopyFile) with
    | some h => (h s src dest, fds)
    | none => (copyFile now s src dest, fds)

/-! ## Well-formedness of stores

The spec's data-model invariants (§3): unique normalized paths, consistent
`name`/`parentPath` fields, and every non-root entry's parent present as a
directory. -/

/-- All primary keys are distinct. -/
def uniquePaths (s : Store) : Prop :=
  s.Pairwise (fun a b => a.path ≠ b.path)

instance (s : Store) : Decidable (uniquePaths s) := by
  unfold uniquePaths
  infer_instance

/-- Field consistency of a single entry: the root entry, or an entry whose
path is its parent's directory marker followed by a slash-free name. -/
def WFEntry (e : Entry) : Prop :=
  (e.path = rootPath ∧ e.parentPath = [] ∧ e.name = [])
  ∨ (e.path = dirP e.parentPath ++ e.name ∧ e.name ≠ [] ∧ '/' ∉ e.name ∧
     norm e.parentPath = e.parentPath)

def WFStore (s : Store) : Prop := uniquePaths s ∧ ∀ e ∈ s, WFEntry e

/-- Every non-root entry's parent exists and is a directory. -/
def closedStore (s : Store) : Prop :=
  ∀ e ∈ s, e.path ≠ rootPath →
    ∃ pe, dbGet s e.parentPath = some pe ∧ pe.type = EType.directory

/-- Number of entries strictly inside the directory `d`; bounds the recursion
depth of subtree operations. -/
def subCount (s : Store) (d : Path) : Nat :=
  (s.filter (fun e => decide (strictSub d e.path))).length

/-! ## Concrete fixtures used by witnesses and counterexamples -/

def rootEntry : Entry :=
  { path := rootPath, name := [], type := .directory, size := 0,
    createdAt := 0, modifiedAt := 0, parentPath := [] }

def dirEntry (p : Path) (t : Nat) : Entry :=
  { path := norm p, name := baseOf p, type := .directory, size := 0,
    createdAt := t, modifiedAt := t, parentPath := parentOf p }

def fileEntry (p : Path) (c : List Nat) (t : Nat) : Entry :=
  { path := norm p, name := baseOf p, type := .file, size := c.length,
    content := some c, mimeType := some octetStream,
    createdAt := t, modifiedAt := t, parentPath := parentOf p }

def symEntry (p : Path) (target : Path) (t : Nat) : Entry :=
  { path := norm p, name := baseOf p, type := .symlink, size := 0,
    linkTarget := some target, createdAt := t, modifiedAt := t,
    parentPath := parentOf p }

deriving instance DecidableEq for Except

/-- Index walk that re-enters a cycle: follows `k ↦ k + 1` but jumps back to
`i` instead of reaching `j` (used to extend a cyclic chain indefinitely). -/
def cycIdx (i j : Nat) : Nat → Nat
  | 0 => 0
  | k + 1 => if cycIdx i j k + 1 = j then i else cycIdx i j k + 1

/-- The concrete paths of the hard-link scenario. -/
def aDir : Path := "/a".toList
def bTxt : Path := "/a/b.txt".toList
def cTxt : Path := "/a/c.txt".toList

/-- The concrete paths of the rename-subtree scenario. -/
def zDir : Path := "/z".toList
def zbTxt : Path := "/z/b.txt".toList

/-- The entry `renameInternal` writes at the new directory path. -/
def movedA3 (da : Entry) (now : Nat) : Entry :=
  { da with
      path := zDir
      name := baseOf zDir
      modifiedAt := now
      parentPath := rootPath }

/-- The entry `renameInternal` writes for the re-pathed child file. -/
def movedB3 (fb : Entry) (now : Nat) : Entry :=
  { fb with
      path := zbTxt
      name := baseOf zbTxt
      modifiedAt := now
      parentPath := zDir }

/-- The source entry of the hard-link scenario after `link` assigns it a
group key (the source's own path). -/
def keyedEntry (fb : Entry) : Entry := { fb with hardLinkKey := some fb.path }

/-- The entry `link` creates at `/a/c.txt`. -/
def linkedEntry (fb : Entry) (now1 : Nat) : Entry :=
  { path := cTxt
    name := baseOf cTxt
    type := EType.file
    size := fb.size
    content := fb.content
    mimeType := fb.mimeType
    linkTarget := none
    hardLinkKey := some fb.path
    createdAt := now1
    modifiedAt := now1
    parentPath := parentOf cTxt }

/-- The scenario store right after the `link` call. -/
def linkedStore (s : Store) (fb : Entry) (now1 : Nat) : Store :=
  dbPut (dbPut s (keyedEntry fb)) (linkedEntry fb now1)

/-- The source entry after the propagation of a write of `data`. -/
def propagatedEntry (fb : Entry) (data : List Nat) (now2 : Nat) : Entry :=
  { keyedEntry fb with
      size := data.length
      content := some data
      mimeType := some octetStream
      modifiedAt := now2 }

/-- A two-symlink cycle: `/l1 -> /l2 -> /l1`. -/
def cycleStore : Store :=
  [rootEntry, symEntry "/l1".toList "/l2".toList 1,
   symEntry "/l2".toList "/l1".toList 1]

def cycf : Nat → Path := fun k => (if k % 2 = 0 then "/l1" else "/l2").toList

/-- An acyclic chain of nine symlinks ending at the file `/f`. -/
def chain9Store : Store :=
  rootEntry ::
    (List.range 8).map (fun k =>
      symEntry ("/s".toList ++ [Char.ofNat (48 + k)])
               ("/s".toList ++ [Char.ofNat (49 + k)]) 1) ++
    [symEntry "/s8".toList "/f".toList 1, fileEntry "/f".toList [1] 1]

def chain9f : Nat → Path :=
  fun k => if k < 9 then "/s".toList ++ [Char.ofNat (48 + k)] else "/f".toList

/-- A chain of ten symlinks `/t0 -> … -> /t9 -> /f`. -/
def chain10Store : Store :=
  rootEntry ::
    (List.range 9).map (fun k =>
      symEntry ("/t".toList ++ [Char.ofNat (48 + k)])
               ("/t".toList ++ [Char.ofNat (49 + k)]) 1) ++
    [symEntry "/t9".toList "/f".toList 1, fileEntry "/f".toList [1] 1]

def chain10f : Nat → Path :=
  fun k => if k < 10 then "/t".toList ++ [Char.ofNat (48 + k)] else "/f".toList

/-! # Lemmas about the store primitives -/

theorem dbGet_path {s : Store} {q : Path} {e : Entry}
    (h : dbGet s q = some e) : e.path = q := by
  induction s with
  | nil => simp [dbGet] at h
  | cons x s ih =>
    by_cases hx : x.path = q
    · simp [dbGet, hx] at h
      rw [← h, hx]
    · simp [dbGet, hx] at h
      exact ih h

theorem dbGet_dbPut_self (s : Store) (e : Entry) :
    dbGet (dbPut s e) e.path = some e := by
  induction s with
  | nil => simp [dbGet, dbPut]
  | cons x s ih =>
    by_cases hx : x.path = e.path
    · simp [dbPut, hx, dbGet]
    · simp [dbPut, hx, dbGet, ih]

theorem dbGet_dbPut_ne (s : Store) (e : Entry) {q : Path} (h : q ≠ e.path) :
    dbGet (dbPut s e) q = dbGet s q := by
  induction s with
  | nil =>
    simp only [dbPut, dbGet, if_neg (show ¬e.path = q from fun h2 => h h2.symm)]
  | cons x s ih =>
    by_cases hx : x.path = e.path
    · simp only [dbPut, if_pos hx, dbGet,
        if_neg (show ¬e.path = q from fun h2 => h h2.symm),
        if_neg (show ¬x.path = q from fun h2 => h (hx.symm.trans h2).symm)]
    · simp only [dbPut, if_neg hx, dbGet, ih]

theorem dbGet_dbDelete_self (s : Store) (p : Path) :
    dbGet (dbDelete s p) p = none := by
  induction s with
  | nil => simp [dbGet, dbDelete]
  | cons x s ih =>
    by_cases hx : x.path = p
    · simpa [dbDelete, hx] using ih
    · simpa [dbDelete, hx, dbGet] using ih

theorem dbGet_dbDelete_ne (s : Store) {p q : Path} (h : q ≠ p) :
    dbGet (dbDelete s p) q = dbGet s q := by
  induction s with
  | nil => simp [dbDelete]
  | cons x s ih =>
    by_cases hx : x.path = p
    · rw [show dbDelete (x :: s) p = dbDelete s p by simp [dbDelete, hx]]
      rw [ih, dbGet,
        if_neg (show ¬x.path = q from fun hq => h (hq.symm.trans hx))]
    · rw [show dbDelete (x :: s) p = x :: dbDelete s p by simp [dbDelete, hx]]
      by_cases hq : x.path = q
      · simp [dbGet, hq]
      · simp only [dbGet, if_neg hq, ih]

/-! # Lemmas about the symlink resolver -/

theorem dbGet_append_some {l1 : Store} (l2 : Store) {p : Path} {e : Entry}
    (h : dbGet l1 p = some e) : dbGet (l1 ++ l2) p = some e := by
  induction l1 with
  | nil => simp [dbGet] at h
  | cons x t ih =>
    by_cases hx : x.path = p
    · simp only [dbGet, hx, if_true] at h ⊢
      simpa using h
    · simp only [dbGet, hx, if_false, List.cons_append, if_neg hx] at h ⊢
      exact ih h

theorem dbGet_append_none {l1 : Store} (l2 : Store) {p : Path}
    (h : dbGet l1 p = none) : dbGet (l1 ++ l2) p = dbGet l2 p := by
  induction l1 with
  | nil => rfl
  | cons x t ih =>
    by_cases hx : x.path = p
    · simp [dbGet, hx] at h
    · simp only [dbGet, hx, if_false] at h
      simp only [List.cons_append, dbGet, if_neg hx]
      exact ih h

theorem dbDelete_append (l1 l2 : Store) (p : Path) :
    dbDelete (l1 ++ l2) p = dbDelete l1 p ++ dbDelete l2 p :=
  List.filter_append _ _

theorem getByParentPath_append (l1 l2 : Store) (pp : Path) :
    getByParentPath (l1 ++ l2) pp =
      getByParentPath l1 pp ++ getByParentPath l2 pp :=
  List.filter_append _ _

theorem getByParentPath_dbDelete (s : Store) (p pp : Path) :
    getByParentPath (dbDelete s p) pp = dbDelete (getByParentPath s pp) p := by
  simp only [getByParentPath, dbDelete, List.filter_filter]
  rw [show (fun (e : Entry) => decide (e.parentPath = pp) && decide (e.path ≠ p)) =
    (fun (e : Entry) => decide (e.path ≠ p) && decide (e.parentPath = pp)) from
    funext fun e => Bool.and_comm _ _]

theorem symStep_elim {s : Store} {p np : Path} (h : symStep s p = some np) :
    ∃ e t, dbGet s p = some e ∧ e.type = EType.symlink ∧
      jsStr e.linkTarget = some t ∧ norm t = np := by
  unfold symStep at h
  split at h
  · exact absurd h (by simp)
  · rename_i e he
    split at h
    · rename_i hty
      split at h
      · exact absurd h (by simp)
      · rename_i t ht
        exact ⟨e, t, he, hty, ht, by simpa using h⟩
    · exact absurd h (by simp)

/-- If the loop reaches a path with no entry it returns `(path, undefined)`,
whatever the flag and however many hops `i` were already followed. -/
theorem resolveLoop_missing (s : Store) (a : Bool) (fuel i : Nat) (p : Path)
    (seen : List Path) (h0 : 0 < fuel) (h : dbGet s p = none) :
    resolveLoop s a fuel i p seen = .ok (p, none) := by
  cases fuel with
  | zero => omega
  | succ n =>
    simp only [resolveLoop, h]
    split <;> rfl

/-- The `allowMissingTarget` flag never changes the resolver's behaviour. -/
theorem resolveLoop_allow (s : Store) :
    ∀ (fuel i : Nat) (p : Path) (seen : List Path),
      resolveLoop s true fuel i p seen = resolveLoop s false fuel i p seen := by
  intro fuel
  induction fuel with
  | zero => intro i p seen; rfl
  | succ n ih =>
    intro i p seen
    cases he : dbGet s p with
    | none => simp only [resolveLoop, he, ite_self]
    | some e =>
      simp only [resolveLoop, he]
      by_cases hty : e.type = EType.symlink
      · rw [if_pos hty, if_pos hty]
        cases jsStr e.linkTarget with
        | none => rfl
        | some t =>
          by_cases hm : norm t ∈ seen
          · simp only [if_pos hm]
          · simp only [if_neg hm, ih]
      · rw [if_neg hty, if_neg hty]

theorem resolveSymlink_of_missing (s : Store) (a : Bool) (p : Path)
    (h : dbGet s (norm p) = none) :
    resolveSymlink s p a = .ok (norm p, none) :=
  resolveLoop_missing s a 10 0 (norm p) [] (by omega) h

theorem resolveSymlink_of_entry (s : Store) (a : Bool) (p : Path) (e : Entry)
    (h : dbGet s (norm p) = some e) (ht : e.type ≠ EType.symlink) :
    resolveSymlink s p a = .ok (norm p, some e) := by
  simp only [resolveSymlink, resolveLoop, h, if_neg ht]

/-- As long as every hop from `f j` on is a symlink hop, the loop ends in a
link-loop error: either the visited-set fires or the fuel runs out. -/
theorem resolveLoop_eloop (s : Store) (a : Bool) (f : Nat → Path) :
    ∀ (fuel j i : Nat) (seen : List Path),
      (∀ k, j ≤ k → k < j + fuel → symStep s (f k) = some (f (k + 1))) →
      resolveLoop s a fuel i (f j) seen = .error .eloop := by
  intro fuel
  induction fuel with
  | zero => intro j i seen _; rfl
  | succ n ih =>
    intro j i seen hc
    obtain ⟨e, t, he, hty, ht, hnp⟩ := symStep_elim (hc j le_rfl (by omega))
    simp only [resolveLoop, he, if_pos hty, ht, hnp]
    by_cases hm : f (j + 1) ∈ seen
    · rw [if_pos hm]
    · rw [if_neg hm]
      exact ih (j + 1) (i + 1) (f (j + 1) :: seen)
        (fun k h1 h2 => hc k (by omega) (by omega))

/-- An acyclic symlink chain of `n` hops ending at a non-symlink entry
resolves to that entry, provided `n` hops fit in the fuel. -/
theorem resolveLoop_chain_ok (s : Store) (a : Bool) (f : Nat → Path)
    (e : Entry) (n : Nat)
    (hcn : ∀ k, k < n → symStep s (f k) = some (f (k + 1)))
    (hend : dbGet s (f n) = some e) (hty : e.type ≠ EType.symlink)
    (hdist : ∀ j, j ≤ n → ∀ i, i < j → 1 ≤ i → f i ≠ f j) :
    ∀ (d j i fuel : Nat) (seen : List Path), j + d = n → n - j < fuel →
      (∀ m, j < m → m ≤ n → f m ∉ seen) →
      resolveLoop s a fuel i (f j) seen = .ok (f n, some e) := by
  intro d
  induction d with
  | zero =>
    intro j i fuel seen hj hfuel _
    have hjn : j = n := by omega
    subst hjn
    cases fuel with
    | zero => omega
    | succ m => simp only [resolveLoop, hend, if_neg hty]
  | succ d ih =>
    intro j i fuel seen hj hfuel hseen
    have hj' : j < n := by omega
    obtain ⟨e', t, he', hty', ht, hnp⟩ := symStep_elim (hcn j hj')
    cases fuel with
    | zero => omega
    | succ m =>
      simp only [resolveLoop, he', if_pos hty', ht, hnp]
      rw [if_neg (hseen (j + 1) (by omega) (by omega))]
      refine ih (j + 1) (i + 1) m (f (j + 1) :: seen) (by omega) (by omega) ?_
      intro m' h1 h2
      simp only [List.mem_cons, not_or]
      exact ⟨fun hEq => hdist m' h2 (j + 1) h1 (by omega) hEq.symm,
             hseen m' (by omega) h2⟩

/-- C9: the `allowMissingTarget` flag has no effect on the resolver's
observable behaviour: `resolveSymlink(path, true)` and
`resolveSymlink(path, false)` always agree, and whenever the loop reaches a
missing entry it returns `(path, undefined)` without error, whatever the
flag and however many hops `i` were already followed. -/
theorem C9_allowMissingTarget_irrelevant :
    (∀ (s : Store) (p : Path),
       resolveSymlink s p true = resolveSymlink s p false) ∧
    (∀ (s : Store) (a : Bool) (fuel i : Nat) (p : Path) (seen : List Path),
       0 < fuel → dbGet s p = none →
       resolveLoop s a fuel i p seen = .ok (p, none)) :=
  ⟨fun s p => resolveLoop_allow s 10 0 (norm p) [],
   fun s a fuel i p seen h0 h => resolveLoop_missing s a fuel i p seen h0 h⟩

theorem C9_witness :
    resolveSymlink cycleStore "/x".toList true =
      resolveSymlink cycleStore "/x".toList false ∧
    resolveLoop cycleStore true 7 5 "/x".toList [] = .ok ("/x".toList, none) :=
  ⟨C9_allowMissingTarget_irrelevant.1 cycleStore "/x".toList,
   C9_allowMissingTarget_irrelevant.2 cycleStore true 7 5 "/x".toList []
     (by decide) (by decide)⟩

/-- C2: bounded, loop-safe symlink resolution.
(1) A chain that revisits a resolved path (a cycle) fails with a link-loop
error; (2) an acyclic chain of exactly 9 hops ending at an existing
non-symlink entry resolves to that entry and its path; (3) a chain of 10 or
more hops fails with a link-loop error.  All three hold for either value of
`allowMissingTarget`. -/
theorem C2_resolution_bounds :
    (∀ (s : Store) (a : Bool) (p : Path) (f : Nat → Path) (i j : Nat),
       f 0 = norm p → (∀ k, k < j → symStep s (f k) = some (f (k + 1))) →
       i < j → f i = f j →
       resolveSymlink s p a = .error .eloop) ∧
    (∀ (s : Store) (a : Bool) (p : Path) (f : Nat → Path) (e : Entry),
       f 0 = norm p → (∀ k, k < 9 → symStep s (f k) = some (f (k + 1))) →
       dbGet s (f 9) = some e → e.type ≠ EType.symlink →
       (∀ j, j ≤ 9 → ∀ i, i < j → 1 ≤ i → f i ≠ f j) →
       resolveSymlink s p a = .ok (f 9, some e)) ∧
    (∀ (s : Store) (a : Bool) (p : Path) (f : Nat → Path),
       f 0 = norm p → (∀ k, k < 10 → symStep s (f k) = some (f (k + 1))) →
       resolveSymlink s p a = .error .eloop) := by
  refine ⟨?_, ?_, ?_⟩
  · intro s a p f i j h0 hc hij hcyc
    have hbound : ∀ k, cycIdx i j k < j := by
      intro k
      induction k with
      | zero => simp only [cycIdx]; omega
      | succ k ihk =>
        simp only [cycIdx]
        split <;> omega
    have hstep : ∀ k,
        symStep s (f (cycIdx i j k)) = some (f (cycIdx i j (k + 1))) := by
      intro k
      have hm : cycIdx i j k < j := hbound k
      by_cases h : cycIdx i j k + 1 = j
      · rw [hc _ hm, show cycIdx i j (k + 1) = i from by
          simp only [cycIdx, if_pos h]]
        rw [h, ← hcyc]
      · rw [hc _ hm, show cycIdx i j (k + 1) = cycIdx i j k + 1 from by
          simp only [cycIdx, if_neg h]]
    have hmain := resolveLoop_eloop s a (fun k => f (cycIdx i j k)) 10 0 0 []
      (fun k _ _ => hstep k)
    have h00 : f (cycIdx i j 0) = norm p := by
      rw [show cycIdx i j 0 = 0 from rfl, h0]
    simpa [resolveSymlink, h00] using hmain
  · intro s a p f e h0 hc hend hty hdist
    have := resolveLoop_chain_ok s a f e 9 hc hend hty hdist 9 0 0 10 []
      (by omega) (by omega) (by simp)
    simpa [resolveSymlink, h0] using this
  · intro s a p f h0 hc
    have := resolveLoop_eloop s a f 10 0 0 [] (fun k _ h2 => hc k (by omega))
    simpa [resolveSymlink, h0] using this

theorem C2_witness :
    resolveSymlink cycleStore "/l1".toList false = .error .eloop ∧
    resolveSymlink chain9Store "/s0".toList false =
      .ok ("/f".toList, some (fileEntry "/f".toList [1] 1)) ∧
    resolveSymlink chain10Store "/t0".toList false = .error .eloop := by
  refine ⟨?_, ?_, ?_⟩
  · exact C2_resolution_bounds.1 cycleStore false "/l1".toList cycf 1 3
      (by decide) (by decide) (by decide) (by decide)
  · exact C2_resolution_bounds.2.1 chain9Store false "/s0".toList chain9f
      (fileEntry "/f".toList [1] 1) (by decide) (by decide) (by decide)
      (by decide) (by decide)
  · exact C2_resolution_bounds.2.2 chain10Store false "/t0".toList chain10f
      (by decide) (by decide)

/-- C7 counterexample: `symlink('a/', '/l')` succeeds but stores
`linkTarget = "/a"`, not the caller's string `"a/"`: the target is passed
through `norm` at creation time. -/
theorem C7_counterexample :
    (symlink 3 [rootEntry] "a/".toList "/l".toList).val = .ok () ∧
    ((dbGet (symlink 3 [rootEntry] "a/".toList "/l".toList).store
        "/l".toList).bind (·.linkTarget)) = some "/a".toList ∧
    ("/a".toList : Path) ≠ "a/".toList := by
  refine ⟨by decide, by decide, by decide⟩

/-- C7 (amended): for every target string and valid absent path,
`symlink(target, path)` creates a `Symlink` entry whose stored target is
`norm target` — the caller's string with a leading '/' ensured and a single
trailing '/' stripped — with no resolution applied. -/
theorem C7_symlink_target_normalized (now : Nat) (s : Store)
    (target0 path0 : Path)
    (hroot : norm path0 ≠ rootPath)
    (hpar : dirCheck s (parentOf (norm path0)) = .ok ())
    (habs : dbGet s (norm path0) = none) :
    (symlink now s target0 path0).val = .ok () ∧
    dbGet (symlink now s target0 path0).store (norm path0) =
      some { path := norm path0, name := baseOf (norm path0),
             type := .symlink, size := 0, content := none, mimeType := none,
             linkTarget := some (norm target0), hardLinkKey := none,
             createdAt := now, modifiedAt := now,
             parentPath := parentOf (norm path0) } := by
  unfold symlink
  simp only [if_neg hroot, hpar, habs]
  exact ⟨trivial, dbGet_dbPut_self s _⟩

theorem C7_witness :
    (symlink 7 [rootEntry] "b".toList "/lnk".toList).val = .ok () ∧
    dbGet (symlink 7 [rootEntry] "b".toList "/lnk".toList).store
        (norm "/lnk".toList) =
      some { path := norm "/lnk".toList, name := baseOf (norm "/lnk".toList),
             type := .symlink, size := 0, content := none, mimeType := none,
             linkTarget := some (norm "b".toList), hardLinkKey := none,
             createdAt := 7, modifiedAt := 7,
             parentPath := parentOf (norm "/lnk".toList) } :=
  C7_symlink_target_normalized 7 [rootEntry] "b".toList "/lnk".toList
    (by decide) (by decide) (by decide)

/-! # The plugin router: ambiguity pre-check (C6) -/

/-- C6: whenever the first-matching active plugins of the two (non-empty)
path arguments of a dual-path operation carry two distinct names, the call
fails with the routing-ambiguity error and neither the store, nor the
descriptor table, nor the event stream is touched — whatever handlers any
plugin defines, none is invoked, and the built-in implementation is not
reached either. -/
theorem C6_routing_ambiguity (now : Nat) (plugins : List ActivePlugin)
    (s : Store) (fds : FdState) (p1 p2 : Path) (ap1 ap2 : ActivePlugin)
    (h1ne : p1 ≠ []) (h2ne : p2 ≠ [])
    (h1 : findMatch plugins p1 = some ap1)
    (h2 : findMatch plugins p2 = some ap2)
    (hne : ap1.name ≠ ap2.name) :
    renamePub now plugins s fds p1 p2 = (⟨s, [], .error .eambiguous⟩, fds) ∧
    linkPub now plugins s fds p1 p2 = (⟨s, [], .error .eambiguous⟩, fds) ∧
    copyFilePub now plugins s fds p1 p2 = (⟨s, [], .error .eambiguous⟩, fds) := by
  have hr : resolvePluginFromPaths plugins [some p1, some p2] =
      .error .eambiguous := by
    unfold resolvePluginFromPaths
    simp only [List.filterMap_cons, List.filterMap_nil, if_neg h1ne,
      if_neg h2ne, h1, h2, List.all_cons, List.all_nil,
      decide_eq_false (fun h : ap2.name = ap1.name => hne h.symm),
      Bool.false_and, Bool.and_true]
    rfl
  exact ⟨by simp only [renamePub, hr], by simp only [linkPub, hr],
         by simp only [copyFilePub, hr]⟩

theorem C6_witness :
    renamePub 0
      [⟨"p1".toList, fun p => decide (p = "/x".toList), none, none, none⟩,
       ⟨"p2".toList, fun p => decide (p = "/y".toList), none, none, none⟩]
      [rootEntry] ⟨[], 3⟩ "/x".toList "/y".toList =
      (⟨[rootEntry], [], .error .eambiguous⟩, ⟨[], 3⟩) ∧
    linkPub 0
      [⟨"p1".toList, fun p => decide (p = "/x".toList), none, none, none⟩,
       ⟨"p2".toList, fun p => decide (p = "/y".toList), none, none, none⟩]
      [rootEntry] ⟨[], 3⟩ "/x".toList "/y".toList =
      (⟨[rootEntry], [], .error .eambiguous⟩, ⟨[], 3⟩) ∧
    copyFilePub 0
      [⟨"p1".toList, fun p => decide (p = "/x".toList), none, none, none⟩,
       ⟨"p2".toList, fun p => decide (p = "/y".toList), none, none, none⟩]
      [rootEntry] ⟨[], 3⟩ "/x".toList "/y".toList =
      (⟨[rootEntry], [], .error .eambiguous⟩, ⟨[], 3⟩) :=
  C6_routing_ambiguity 0 _ [rootEntry] ⟨[], 3⟩ "/x".toList "/y".toList _ _
    (by decide) (by decide) rfl rfl (by decide)

/-! # Combinator lemmas -/

theorem seqRes_events_mem {r : Res Unit} {k : Store → Res Unit} {ev : WEvent}
    (h : ev ∈ (seqRes r k).events) :
    ev ∈ r.events ∨ ev ∈ (k r.store).events := by
  unfold seqRes at h
  cases hv : r.val with
  | error e => simp only [hv] at h; exact .inl h
  | ok u => simp only [hv] at h; exact List.mem_append.mp h

theorem seqRes_of_ok {r : Res Unit} {k : Store → Res Unit}
    (h : r.val = .ok ()) :
    seqRes r k = ⟨(k r.store).store, r.events ++ (k r.store).events,
                  (k r.store).val⟩ := by
  unfold seqRes
  rw [h]

theorem seqRes_val_ok {r : Res Unit} {k : Store → Res Unit}
    (h : (seqRes r k).val = .ok ()) :
    r.val = .ok () ∧ (k r.store).val = .ok () := by
  unfold seqRes at h
  cases hv : r.val with
  | error e => simp [hv] at h
  | ok u => simp only [hv] at h; exact ⟨rfl, h⟩

theorem emitAfter_events_mem {st : Res Unit} {ev0 ev : WEvent}
    (h : ev ∈ (emitAfter st ev0).events) : ev ∈ st.events ∨ ev = ev0 := by
  unfold emitAfter at h
  cases hv : st.val with
  | error e => simp only [hv] at h; exact .inl h
  | ok u =>
    simp only [hv] at h
    rcases List.mem_append.mp h with h2 | h2
    · exact .inl h2
    · simp at h2; exact .inr h2

theorem emitAfter_val_ok {st : Res Unit} {ev0 : WEvent}
    (h : (emitAfter st ev0).val = .ok ()) : st.val = .ok () := by
  unfold emitAfter at h
  cases hv : st.val with
  | error e => simp [hv] at h
  | ok u => rfl

theorem emitAfter_of_ok {st : Res Unit} {ev0 : WEvent}
    (h : st.val = .ok ()) :
    emitAfter st ev0 = ⟨st.store, st.events ++ [ev0], .ok ()⟩ := by
  unfold emitAfter
  rw [h]

theorem finishRemove_events_mem {st : Res Unit} {path : Path} {entry : Entry}
    {ev : WEvent} (h : ev ∈ (finishRemove st path entry).events) :
    ev ∈ st.events ∨ ev = ⟨path, WType.rename, some entry, none⟩ := by
  unfold finishRemove at h
  cases hv : st.val with
  | error e => simp only [hv] at h; exact .inl h
  | ok u =>
    simp only [hv] at h
    rcases List.mem_append.mp h with h2 | h2
    · exact .inl h2
    · simp at h2; exact .inr h2

theorem finishRemove_of_ok {st : Res Unit} {path : Path} {entry : Entry}
    (h : st.val = .ok ()) :
    finishRemove st path entry =
      ⟨dbDelete st.store path,
       st.events ++ [⟨path, WType.rename, some entry, none⟩], .ok ()⟩ := by
  unfold finishRemove
  rw [h]

theorem finishRemove_val_ok {st : Res Unit} {path : Path} {entry : Entry}
    (h : (finishRemove st path entry).val = .ok ()) : st.val = .ok () := by
  unfold finishRemove at h
  cases hv : st.val with
  | error e => simp [hv] at h
  | ok u => rfl

/-! # Watch events (C8) -/

theorem firesPaired_append (l1 l2 : List WEvent) (P : Path) :
    firesPaired (l1 ++ l2) P = (firesPaired l1 P || firesPaired l2 P) := by
  simp [firesPaired, List.any_append]

/-- Every event emitted by `renameInternal` carries both a `prev` and a
`next` snapshot (the old entry and the moved entry). -/
theorem renameInternal_events_paired (now : Nat) :
    ∀ (fuel : Nat) (s : Store) (a b : Path),
      ∀ ev ∈ (renameInternal now fuel s a b).events,
        ev.prev.isSome ∧ ev.next.isSome := by
  intro fuel
  induction fuel with
  | zero => intro s a b ev hev; simp [renameInternal] at hev
  | succ n ih =>
    have hstep : ∀ (old new : Path) (cs : List Entry) (t : Store),
        ∀ ev ∈ (renChildren (fun t a b => renameInternal now n t a b)
          old new cs t).events, ev.prev.isSome ∧ ev.next.isSome := by
      intro old new cs
      induction cs with
      | nil => intro t ev hev; simp [renChildren] at hev
      | cons c cs ihc =>
        intro t ev hev
        rcases seqRes_events_mem (by simpa only [renChildren] using hev)
          with h | h
        · exact ih t c.path (new ++ c.path.drop old.length) ev h
        · exact ihc _ ev h
    intro s a b ev hev
    simp only [renameInternal] at hev
    by_cases hroot : norm a = rootPath
    · rw [if_pos hroot] at hev; simp at hev
    rw [if_neg hroot] at hev
    cases hget : dbGet s (norm a) with
    | none => simp only [hget] at hev; simp at hev
    | some entry =>
      simp only [hget] at hev
      cases hchk : dirCheck s (parentOf (norm b)) with
      | error e => simp only [hchk] at hev; simp at hev
      | ok u =>
        simp only [hchk] at hev
        rcases emitAfter_events_mem hev with h | h
        · by_cases hdir : entry.type = EType.directory
          · rw [if_pos hdir] at h
            exact hstep _ _ _ _ ev h
          · rw [if_neg hdir] at h; simp at h
        · simp [h]

/-- Every event emitted by `removeInternal` has `next = null`. -/
theorem removeInternal_events_unpaired (now : Nat) :
    ∀ (fuel : Nat) (s : Store) (p : Path) (r f : Bool),
      ∀ ev ∈ (removeInternal now fuel s p r f).events, ev.next = none := by
  intro fuel
  induction fuel with
  | zero => intro s p r f ev hev; simp [removeInternal] at hev
  | succ n ih =>
    have hstep : ∀ (f : Bool) (cs : List Entry) (t : Store),
        ∀ ev ∈ (remChildren (fun t q => removeInternal now n t q true f)
          cs t).events, ev.next = none := by
      intro f cs
      induction cs with
      | nil => intro t ev hev; simp [remChildren] at hev
      | cons c cs ihc =>
        intro t ev hev
        rcases seqRes_events_mem (by simpa only [remChildren] using hev)
          with h | h
        · exact ih t c.path true f ev h
        · exact ihc _ ev h
    intro s p r f ev hev
    simp only [removeInternal] at hev
    by_cases hroot : norm p = rootPath
    · rw [if_pos hroot] at hev; simp at hev
    rw [if_neg hroot] at hev
    cases hget : dbGet s (norm p) with
    | none =>
      simp only [hget] at hev
      split at hev <;> simp at hev
    | some entry =>
      simp only [hget] at hev
      rcases finishRemove_events_mem hev with h | h
      · by_cases hdir : entry.type = EType.directory
        · rw [if_pos hdir] at h
          by_cases hne : getByParentPath s (norm p) ≠ [] ∧ r = false
          · rw [if_pos hne] at h; simp at h
          · rw [if_neg hne] at h
            exact hstep f _ _ ev h
        · rw [if_neg hdir] at h; simp at h
      · simp [h]

/-- On success, `renameInternal` delivers a paired-snapshot event for the
*old* path (prev = the old entry, next = the moved entry). -/
theorem renameInternal_fires_old (now fuel : Nat) (s : Store) (a b : Path)
    (h : (renameInternal now fuel s a b).val = .ok ()) :
    firesPaired (renameInternal now fuel s a b).events (norm a) = true := by
  cases fuel with
  | zero => simp [renameInternal] at h
  | succ n =>
    simp only [renameInternal] at h ⊢
    by_cases hroot : norm a = rootPath
    · rw [if_pos hroot] at h; simp at h
    rw [if_neg hroot] at h ⊢
    cases hget : dbGet s (norm a) with
    | none => simp only [hget] at h; simp at h
    | some entry =>
      simp only [hget] at h ⊢
      cases hchk : dirCheck s (parentOf (norm b)) with
      | error e => simp only [hchk] at h; simp at h
      | ok u =>
        simp only [hchk] at h ⊢
        rw [emitAfter_of_ok (emitAfter_val_ok h)]
        simp [firesPaired, List.any_append]

/-- `writeFileInternal` on a path resolving to a missing entry creates a
fresh file entry and emits exactly one creation event (no prior snapshot,
no hard-link propagation). -/
theorem writeFileInternal_create (now : Nat) (s : Store) (path0 : Path)
    (data : List Nat) (rp : Path) (x : Option Entry)
    (hres : resolveSymlink s path0 true = .ok (rp, x))
    (hchk : dirCheck s (parentOf (norm rp)) = .ok ())
    (hget : dbGet s (norm rp) = none) :
    writeFileInternal now s path0 data =
      ⟨dbPut s
         { path := norm rp, name := baseOf (norm rp), type := .file,
           size := data.length, content := some data,
           mimeType := some octetStream, linkTarget := none,
           hardLinkKey := none, createdAt := now, modifiedAt := now,
           parentPath := parentOf (norm rp) },
       [⟨norm rp, WType.rename, none,
         some { path := norm rp, name := baseOf (norm rp), type := .file,
                size := data.length, content := some data,
                mimeType := some octetStream, linkTarget := none,
                hardLinkKey := none, createdAt := now, modifiedAt := now,
                parentPath := parentOf (norm rp) }⟩], .ok ()⟩ := by
  simp only [writeFileInternal, hres, hchk, hget]
  rfl

/-- `writeFileInternal` over an existing entry succeeds and fires the
paired-snapshot listeners at the written path. -/
theorem writeFileInternal_over_fires (now : Nat) (s : Store) (path0 : Path)
    (data : List Nat) (rp : Path) (x : Option Entry) (prev : Entry)
    (hres : resolveSymlink s path0 true = .ok (rp, x))
    (hchk : dirCheck s (parentOf (norm rp)) = .ok ())
    (hget : dbGet s (norm rp) = some prev) :
    firesPaired (writeFileInternal now s path0 data).events (norm rp) = true ∧
    (writeFileInternal now s path0 data).val = .ok () := by
  simp only [writeFileInternal, hres, hchk, hget]
  cases hk : jsStr ((some prev).bind (·.hardLinkKey)) with
  | none => simp [firesPaired]
  | some k => simp [firesPaired]

/-- `symlink` never delivers a paired-snapshot event. -/
theorem symlink_no_paired (now : Nat) (s : Store) (t0 p0 P : Path) :
    firesPaired (symlink now s t0 p0).events P = false := by
  unfold symlink
  by_cases hroot : norm p0 = rootPath
  · simp [if_pos hroot, firesPaired]
  simp only [if_neg hroot]
  cases hchk : dirCheck s (parentOf (norm p0)) with
  | error e => simp [firesPaired]
  | ok u =>
    cases hget : dbGet s (norm p0) with
    | some e => simp [firesPaired]
    | none => simp [firesPaired]

/-- `link` never delivers a paired-snapshot event. -/
theorem link_no_paired (now : Nat) (s : Store) (a b P : Path) :
    firesPaired (link now s a b).events P = false := by
  unfold link
  cases hres : resolveSymlink s (norm a) false with
  | error e => simp [hres, firesPaired]
  | ok pr =>
    obtain ⟨rp, x⟩ := pr
    cases x with
    | none => simp [hres, firesPaired]
    | some e =>
      simp only [hres]
      by_cases hty : e.type ≠ EType.file
      · simp [if_pos hty, firesPaired]
      · simp only [if_neg hty]
        cases hchk : dirCheck s (parentOf (norm b)) with
        | error er => simp [hchk, firesPaired]
        | ok u =>
          simp only [hchk]
          cases hget : dbGet s (norm b) with
          | some e2 => simp [hget, firesPaired]
          | none => simp [hget, firesPaired]

/-- C8 counterexample: with `/a` an existing file, `rename('/a','/b')`
succeeds, deletes the entry at `/a`, and yet delivers a paired-snapshot
event for `/a` (prev = the old entry, next = the moved entry at `/b`) — a
`watchFile` listener on `/a` fires although the operation is not an
in-place modification of `/a` but its removal from that path. -/
theorem C8_counterexample :
    (rename 7 [rootEntry, fileEntry "/a".toList [1] 1]
       "/a".toList "/b".toList).val = .ok () ∧
    dbGet (rename 7 [rootEntry, fileEntry "/a".toList [1] 1]
       "/a".toList "/b".toList).store "/a".toList = none ∧
    firesPaired (rename 7 [rootEntry, fileEntry "/a".toList [1] 1]
       "/a".toList "/b".toList).events "/a".toList = true := by
  refine ⟨by decide, by decide, by decide⟩

/-- C8 (amended): paired-snapshot listeners fire exactly when the bus
receives both snapshots: on overwriting writes (and their hard-link
propagation), and additionally on `rename`, which passes the old and the
moved entry for the *old* path even though the operation removes the entry
at that path; they never fire on first creation (a creating write,
`symlink`, `link`) nor on removal. -/
theorem C8_paired_snapshot_semantics :
    (∀ (now fuel : Nat) (s : Store) (a b : Path),
       ∀ ev ∈ (renameInternal now fuel s a b).events,
         ev.prev.isSome ∧ ev.next.isSome) ∧
    (∀ (now fuel : Nat) (s : Store) (a b : Path),
       (renameInternal now fuel s a b).val = .ok () →
       firesPaired (renameInternal now fuel s a b).events (norm a) = true) ∧
    (∀ (now fuel : Nat) (s : Store) (p : Path) (r f : Bool) (P : Path),
       firesPaired (removeInternal now fuel s p r f).events P = false) ∧
    (∀ (now : Nat) (s : Store) (path0 : Path) (data : List Nat)
       (rp : Path) (x : Option Entry) (P : Path),
       resolveSymlink s path0 true = .ok (rp, x) →
       dirCheck s (parentOf (norm rp)) = .ok () →
       dbGet s (norm rp) = none →
       firesPaired (writeFileInternal now s path0 data).events P = false) ∧
    (∀ (now : Nat) (s : Store) (path0 : Path) (data : List Nat)
       (rp : Path) (x : Option Entry) (prev : Entry),
       resolveSymlink s path0 true = .ok (rp, x) →
       dirCheck s (parentOf (norm rp)) = .ok () →
       dbGet s (norm rp) = some prev →
       firesPaired (writeFileInternal now s path0 data).events (norm rp) =
         true) ∧
    (∀ (now : Nat) (s : Store) (t0 p0 P : Path),
       firesPaired (symlink now s t0 p0).events P = false) ∧
    (∀ (now : Nat) (s : Store) (a b P : Path),
       firesPaired (link now s a b).events P = false) := by
  refine ⟨renameInternal_events_paired, renameInternal_fires_old, ?_, ?_,
    ?_, symlink_no_paired, link_no_paired⟩
  · intro now fuel s p r f P
    rw [show firesPaired (removeInternal now fuel s p r f).events P =
        (removeInternal now fuel s p r f).events.any
          (fun e => decide (e.path = P) && e.prev.isSome && e.next.isSome)
      from rfl, List.any_eq_false]
    intro ev hev
    simp [removeInternal_events_unpaired now fuel s p r f ev hev]
  · intro now s path0 data rp x P hres hchk hget
    rw [writeFileInternal_create now s path0 data rp x hres hchk hget]
    simp [firesPaired]
  · intro now s path0 data rp x prev hres hchk hget
    exact (writeFileInternal_over_fires now s path0 data rp x prev hres
      hchk hget).1

theorem C8_witness :
    firesPaired (renameInternal 7 3 [rootEntry, fileEntry "/a".toList [1] 1]
      "/a".toList "/b".toList).events (norm "/a".toList) = true ∧
    firesPaired (removeInternal 7 3 [rootEntry, fileEntry "/a".toList [1] 1]
      "/a".toList false false).events "/a".toList = false ∧
    firesPaired (writeFileInternal 7 [rootEntry] "/n".toList [1]).events
      "/n".toList = false ∧
    firesPaired (writeFileInternal 9 [rootEntry, fileEntry "/a".toList [1] 1]
      "/a".toList [2]).events (norm "/a".toList) = true := by
  refine ⟨C8_paired_snapshot_semantics.2.1 7 3 _ "/a".toList "/b".toList
      (by decide),
    C8_paired_snapshot_semantics.2.2.1 7 3 _ "/a".toList false false
      "/a".toList,
    C8_paired_snapshot_semantics.2.2.2.1 7 [rootEntry] "/n".toList [1]
      "/n".toList none "/n".toList (by decide) (by decide) (by decide),
    C8_paired_snapshot_semantics.2.2.2.2.1 9 _ "/a".toList [2] "/a".toList
      (some (fileEntry "/a".toList [1] 1)) (fileEntry "/a".toList [1] 1)
      (by decide) (by decide) (by decide)⟩

/-! # `open` (C10) -/

/-- When the resolver returns an entry, that entry sits at the returned
path. -/
theorem resolveLoop_ok_entry {s : Store} {a : Bool} :
    ∀ {fuel i : Nat} {p : Path} {seen : List Path} {rp : Path} {e : Entry},
      resolveLoop s a fuel i p seen = .ok (rp, some e) → dbGet s rp = some e := by
  intro fuel
  induction fuel with
  | zero => intro i p seen rp e h; simp [resolveLoop] at h
  | succ n ih =>
    intro i p seen rp e h
    rw [resolveLoop] at h
    cases hget : dbGet s p with
    | none =>
      simp only [hget] at h
      split at h <;> simp at h
    | some e2 =>
      simp only [hget] at h
      by_cases hty : e2.type = EType.symlink
      · rw [if_pos hty] at h
        cases ht : jsStr e2.linkTarget with
        | none => simp only [ht] at h; simp at h
        | some t =>
          simp only [ht] at h
          by_cases hm : norm t ∈ seen
          · simp only [if_pos hm] at h; simp at h
          · simp only [if_neg hm] at h
            exact ih h
      · rw [if_neg hty] at h
        simp only [Except.ok.injEq, Prod.mk.injEq, Option.some.injEq] at h
        rw [← h.1, hget, h.2]

/-- When the resolver stops at a missing entry, the returned path has no
entry. -/
theorem resolveLoop_ok_missing {s : Store} {a : Bool} :
    ∀ {fuel i : Nat} {p : Path} {seen : List Path} {rp : Path},
      resolveLoop s a fuel i p seen = .ok (rp, none) → dbGet s rp = none := by
  intro fuel
  induction fuel with
  | zero => intro i p seen rp h; simp [resolveLoop] at h
  | succ n ih =>
    intro i p seen rp h
    rw [resolveLoop] at h
    cases hget : dbGet s p with
    | none =>
      simp only [hget] at h
      split at h <;> simp at h <;> exact h ▸ hget
    | some e2 =>
      simp only [hget] at h
      by_cases hty : e2.type = EType.symlink
      · rw [if_pos hty] at h
        cases ht : jsStr e2.linkTarget with
        | none => simp only [ht] at h; simp at h
        | some t =>
          simp only [ht] at h
          by_cases hm : norm t ∈ seen
          · simp only [if_pos hm] at h; simp at h
          · simp only [if_neg hm] at h
            exact ih h
      · rw [if_neg hty] at h
        simp at h

/-- C10 (amended): `open` never truncates or modifies an existing entry —
when the path resolves to an existing entry the store is completely
untouched for *any* flags string, and a descriptor on the resolved path
with cursor `0` is allocated.  On an absent resolved path: flags containing
'w' or 'a' (and not starting with 'r') create exactly one empty file and
succeed; flags starting with 'r' without 'w'/'a' fail "not found" creating
nothing; flags both starting with 'r' and containing 'w'/'a' (e.g. "rw")
first create the empty file and then fail "not found". -/
theorem C10_open_semantics :
    (∀ (now : Nat) (s : Store) (fds : FdState) (path0 flags : Path)
       (rp : Path) (e : Entry),
       resolveSymlink s path0 true = .ok (rp, some e) → norm rp = rp →
       openFile now s fds path0 flags =
         (⟨s, [], .ok fds.next⟩,
          ⟨fds.table ++ [(fds.next, ⟨rp, 0, flags⟩)], fds.next + 1⟩)) ∧
    (∀ (now : Nat) (s : Store) (fds : FdState) (path0 flags : Path)
       (rp : Path),
       resolveSymlink s path0 true = .ok (rp, none) → norm rp = rp →
       (flags.contains 'w' ∨ flags.contains 'a') →
       dirCheck s (parentOf rp) = .ok () → flags.head? ≠ some 'r' →
       openFile now s fds path0 flags =
         (⟨dbPut s
             { path := rp, name := baseOf rp, type := .file, size := 0,
               content := some [], mimeType := some octetStream,
               linkTarget := none, hardLinkKey := none, createdAt := now,
               modifiedAt := now, parentPath := parentOf rp },
           [⟨rp, WType.rename, none,
             some { path := rp, name := baseOf rp, type := .file, size := 0,
                    content := some [], mimeType := some octetStream,
                    linkTarget := none, hardLinkKey := none, createdAt := now,
                    modifiedAt := now, parentPath := parentOf rp }⟩],
           .ok fds.next⟩,
          ⟨fds.table ++ [(fds.next, ⟨rp, 0, flags⟩)], fds.next + 1⟩)) ∧
    (∀ (now : Nat) (s : Store) (fds : FdState) (path0 flags : Path)
       (rp : Path),
       resolveSymlink s path0 true = .ok (rp, none) → norm rp = rp →
       ¬flags.contains 'w' → ¬flags.contains 'a' →
       flags.head? = some 'r' →
       openFile now s fds path0 flags = (⟨s, [], .error .enoent⟩, fds)) ∧
    (∀ (now : Nat) (s : Store) (fds : FdState) (path0 flags : Path)
       (rp : Path),
       resolveSymlink s path0 true = .ok (rp, none) → norm rp = rp →
       (flags.contains 'w' ∨ flags.contains 'a') →
       dirCheck s (parentOf rp) = .ok () → flags.head? = some 'r' →
       (openFile now s fds path0 flags).1.val = .error .enoent ∧
       dbGet (openFile now s fds path0 flags).1.store rp =
         some { path := rp, name := baseOf rp, type := .file, size := 0,
                content := some [], mimeType := some octetStream,
                linkTarget := none, hardLinkKey := none, createdAt := now,
                modifiedAt := now, parentPath := parentOf rp }) := by
  have hcreate : ∀ (now : Nat) (s : Store) (rp : Path),
      dbGet s rp = none → norm rp = rp → dirCheck s (parentOf rp) = .ok () →
      writeFileInternal now s rp [] =
        ⟨dbPut s
           { path := rp, name := baseOf rp, type := .file, size := 0,
             content := some [], mimeType := some octetStream,
             linkTarget := none, hardLinkKey := none, createdAt := now,
             modifiedAt := now, parentPath := parentOf rp },
         [⟨rp, WType.rename, none,
           some { path := rp, name := baseOf rp, type := .file, size := 0,
                  content := some [], mimeType := some octetStream,
                  linkTarget := none, hardLinkKey := none, createdAt := now,
                  modifiedAt := now, parentPath := parentOf rp }⟩],
         .ok ()⟩ := by
    intro now s rp hget hnrm hchk
    have hres : resolveSymlink s rp true = .ok (rp, none) := by
      have := resolveSymlink_of_missing s true rp (by rwa [hnrm])
      rwa [hnrm] at this
    have hchk2 : dirCheck s (parentOf (norm rp)) = .ok () := by rwa [hnrm]
    have hget2 : dbGet s (norm rp) = none := by rwa [hnrm]
    have h2 := writeFileInternal_create now s rp [] rp none hres hchk2 hget2
    rwa [hnrm] at h2
  refine ⟨?_, ?_, ?_, ?_⟩
  · intro now s fds path0 flags rp e hres hnrm
    have hex : dbGet s rp = some e :=
      resolveLoop_ok_entry (by simpa [resolveSymlink] using hres)
    simp only [openFile, hres, hnrm, hex]
    simp [allocateFd, hnrm]
  · intro now s fds path0 flags rp hres hnrm hwa hchk hr
    have hex : dbGet s rp = none :=
      resolveLoop_ok_missing (by simpa [resolveSymlink] using hres)
    have hwa2 : 'w' ∈ flags ∨ 'a' ∈ flags := by simpa using hwa
    have h2 := hcreate now s rp hex hnrm hchk
    simp [openFile, hres, hnrm, hex, hwa2, hr, h2, allocateFd]
  · intro now s fds path0 flags rp hres hnrm hw ha hr
    have hex : dbGet s rp = none :=
      resolveLoop_ok_missing (by simpa [resolveSymlink] using hres)
    have hw2 : 'w' ∉ flags := by simpa using hw
    have ha2 : 'a' ∉ flags := by simpa using ha
    simp [openFile, hres, hnrm, hex, hw2, ha2, hr]
  · intro now s fds path0 flags rp hres hnrm hwa hchk hr
    have hex : dbGet s rp = none :=
      resolveLoop_ok_missing (by simpa [resolveSymlink] using hres)
    have hwa2 : 'w' ∈ flags ∨ 'a' ∈ flags := by simpa using hwa
    have h2 := hcreate now s rp hex hnrm hchk
    refine ⟨?_, ?_⟩
    · simp [openFile, hres, hnrm, hex, hwa2, hr, h2]
    · have hst : (openFile now s fds path0 flags).1.store =
          dbPut s
            { path := rp, name := baseOf rp, type := .file, size := 0,
              content := some [], mimeType := some octetStream,
              linkTarget := none, hardLinkKey := none, createdAt := now,
              modifiedAt := now, parentPath := parentOf rp } := by
        simp [openFile, hres, hnrm, hex, hwa2, hr, h2]
      rw [hst]
      exact dbGet_dbPut_self s _

theorem C10_witness :
    openFile 5 [rootEntry, fileEntry "/a".toList [1] 1] ⟨[], 3⟩
      "/a".toList "w".toList =
      (⟨[rootEntry, fileEntry "/a".toList [1] 1], [], .ok 3⟩,
       ⟨[(3, ⟨"/a".toList, 0, "w".toList⟩)], 4⟩) ∧
    openFile 5 [rootEntry] ⟨[], 3⟩ "/n".toList "r".toList =
      (⟨[rootEntry], [], .error .enoent⟩, ⟨[], 3⟩) ∧
    ((openFile 5 [rootEntry] ⟨[], 3⟩ "/n".toList "rw".toList).1.val =
       .error .enoent ∧
     dbGet (openFile 5 [rootEntry] ⟨[], 3⟩ "/n".toList
         "rw".toList).1.store "/n".toList =
       some { path := "/n".toList, name := baseOf "/n".toList, type := .file,
              size := 0, content := some [], mimeType := some octetStream,
              linkTarget := none, hardLinkKey := none, createdAt := 5,
              modifiedAt := 5, parentPath := parentOf "/n".toList }) := by
  refine ⟨?_, ?_, ?_⟩
  · have := C10_open_semantics.1 5 [rootEntry, fileEntry "/a".toList [1] 1]
      ⟨[], 3⟩ "/a".toList "w".toList "/a".toList
      (fileEntry "/a".toList [1] 1) (by decide) (by decide)
    simpa using this
  · exact C10_open_semantics.2.2.1 5 [rootEntry] ⟨[], 3⟩ "/n".toList
      "r".toList "/n".toList (by decide) (by decide) (by decide) (by decide)
      (by decide)
  · exact C10_open_semantics.2.2.2 5 [rootEntry] ⟨[], 3⟩ "/n".toList
      "rw".toList "/n".toList (by decide) (by decide) (by decide) (by decide)
      (by decide)

/-- C10 counterexample: `open('/x', 'rw')` on an absent path fails
"not found" but an empty file *has* been created — the claim's "fails
without creating anything" for flags starting with 'r' is violated when the
flags also contain 'w' or 'a'. -/
theorem C10_counterexample :
    (openFile 5 [rootEntry] ⟨[], 3⟩ "/x".toList "rw".toList).1.val =
      .error .enoent ∧
    (dbGet (openFile 5 [rootEntry] ⟨[], 3⟩ "/x".toList
        "rw".toList).1.store "/x".toList).isSome = true := by
  refine ⟨by decide, by decide⟩

/-! # Descriptor writes (C5) -/

/-- Hard-link propagation never touches the written entry's own path. -/
theorem propagate_get_entry (now : Nat) (entry : Entry) :
    ∀ (sibs : List Entry) (t : Store),
      dbGet (propagate now entry sibs t).1 entry.path =
        dbGet t entry.path := by
  intro sibs
  induction sibs with
  | nil => intro t; rfl
  | cons sib rest ih =>
    intro t
    by_cases h1 : sib.path = entry.path
    · simp only [propagate, if_pos h1]
      exact ih t
    · simp only [propagate, if_neg h1]
      by_cases h2 : sib.type ≠ EType.file
      · rw [if_pos h2]
        exact ih t
      · rw [if_neg h2]
        dsimp only
        rw [ih, dbGet_dbPut_ne]
        exact fun hq => h1 hq.symm

/-- Writing to a normalized path holding a non-symlink entry: the write
succeeds and the *entire* buffer is persisted as the entry's new content. -/
theorem writeFileInternal_get (now : Nat) (s : Store) (p : Path)
    (pe : Entry) (data : List Nat)
    (hnrm : norm p = p)
    (hget : dbGet s p = some pe) (hty : pe.type ≠ EType.symlink)
    (hchk : dirCheck s (parentOf p) = .ok ()) :
    (writeFileInternal now s p data).val = .ok () ∧
    dbGet (writeFileInternal now s p data).store p =
      some { path := p, name := baseOf p, type := .file, size := data.length,
             content := some data, mimeType := some octetStream,
             linkTarget := none, hardLinkKey := pe.hardLinkKey,
             createdAt := jsOrNat (some pe.createdAt) now,
             modifiedAt := now, parentPath := parentOf p } := by
  have hres : resolveSymlink s p true = .ok (p, some pe) := by
    have := resolveSymlink_of_entry s true p pe (by rwa [hnrm]) hty
    rwa [hnrm] at this
  simp only [writeFileInternal, hres, hnrm, hchk, hget]
  cases hk : jsStr ((some pe).bind (fun a => a.hardLinkKey)) with
  | none =>
    simp only [hk]
    exact ⟨trivial, dbGet_dbPut_self s _⟩
  | some k =>
    simp only [hk]
    exact ⟨trivial,
      (propagate_get_entry now _ _ _).trans (dbGet_dbPut_self s _)⟩

theorem find_setFd (l : List (Nat × FD)) (n pos : Nat) (f : FD)
    (h : (l.find? (fun kv => decide (kv.1 = n))).map (·.2) = some f) :
    ((l.map (fun kv =>
        if kv.1 = n then (kv.1, { kv.2 with position := pos }) else kv)).find?
        (fun kv => decide (kv.1 = n))).map (·.2) =
      some { f with position := pos } := by
  induction l with
  | nil => simp at h
  | cons kv l ih =>
    by_cases hk : kv.1 = n
    · simp [hk] at h
      simp [hk, ← h]
    · simp [hk] at h
      obtain ⟨a, ha⟩ := h
      simpa [hk] using ih (by simp [ha])

theorem lookupFd_setFdPos (fds : FdState) (n pos : Nat) (f : FD)
    (h : lookupFd fds n = some f) :
    lookupFd (setFdPos fds n pos) n = some { f with position := pos } :=
  find_setFd fds.table n pos f h

/-- A write with an explicit position never changes the descriptor table
(cursor included), whatever else happens. -/
theorem fdWrite_pos_fixed (now : Nat) (s : Store) (fds : FdState)
    (fdNum : Nat) (buf : List Nat) (offset length : Option Nat) (pos : Nat) :
    (fdWrite now s fds fdNum buf offset length (some pos)).2 = fds := by
  cases hfd : lookupFd fds fdNum with
  | none => simp [fdWrite, hfd]
  | some f =>
    simp only [fdWrite, hfd]
    split
    · rfl
    · cases (writeFileInternal now s f.path _).val with
      | error e => rfl
      | ok u => simp

/-- A `position = null` write that reports `n` bytes written moves the
cursor from the descriptor's position `p₀` to `p₀ + n`. -/
theorem fdWrite_none_parts (now : Nat) (s : Store) (fds : FdState)
    (fdNum : Nat) (buf : List Nat) (offset length : Option Nat) (f : FD)
    (n : Nat) (hfd : lookupFd fds fdNum = some f)
    (hok : (fdWrite now s fds fdNum buf offset length none).1.val = .ok n) :
    n = (fdToWrite buf offset length).length ∧
    (fdWrite now s fds fdNum buf offset length none).2 =
      setFdPos fds fdNum (f.position + n) := by
  simp only [fdWrite, hfd, Option.getD_none] at hok ⊢
  by_cases hrange : (zeroExtend (fdLoad s f.path)
      (f.position + length.getD buf.length)).length <
      f.position + (fdToWrite buf offset length).length
  · rw [if_pos hrange] at hok
    simp at hok
  · rw [if_neg hrange] at hok ⊢
    cases hw : (writeFileInternal now s f.path
        (splice (zeroExtend (fdLoad s f.path)
          (f.position + length.getD buf.length)) f.position
          (fdToWrite buf offset length))).val with
    | error e => simp only [hw] at hok; simp at hok
    | ok u =>
      simp only [hw] at hok ⊢
      simp only [Except.ok.injEq] at hok
      subst hok
      simp

/-- `zeroExtend` reaches at least the requested length. -/
theorem zeroExtend_length (data : List Nat) (needed : Nat) :
    (zeroExtend data needed).length = max data.length needed := by
  unfold zeroExtend
  by_cases h : data.length < needed
  · rw [if_pos h]
    simp
    omega
  · rw [if_neg h]
    omega

/-- Splicing `buf` at `start` into the zero-extended current content equals:
prefix of the old bytes, zero padding up to `start`, the new bytes, then
the remaining old bytes. -/
theorem splice_zeroExtend (cur buf : List Nat) (start : Nat) :
    splice (zeroExtend cur (start + buf.length)) start buf =
      cur.take start ++ List.replicate (start - cur.length) 0 ++ buf ++
        cur.drop (start + buf.length) := by
  unfold splice zeroExtend
  by_cases h : cur.length < start + buf.length
  · rw [if_pos h]
    have hdrop : (cur ++ List.replicate (start + buf.length - cur.length) 0
        ).drop (start + buf.length) = [] := by
      apply List.drop_eq_nil_of_le
      simp only [List.length_append, List.length_replicate]
      omega
    have htake : (cur ++ List.replicate (start + buf.length - cur.length) 0
        ).take start = cur.take start ++ List.replicate (start - cur.length) 0
        := by
      rw [List.take_append_eq_append_take, List.take_replicate]
      congr 1
      congr 1
      omega
    have hdrop2 : cur.drop (start + buf.length) = [] :=
      List.drop_eq_nil_of_le (by omega)
    rw [hdrop, htake, hdrop2]
  · rw [if_neg h]
    have : List.replicate (start - cur.length) (0 : Nat) = [] := by
      rw [List.replicate_eq_nil_iff]
      omega
    rw [this]
    simp

/-- Loading the bytes of a plain file at a normalized path. -/
theorem fdLoad_of_file (s : Store) (p : Path) (pe : Entry)
    (hnrm : norm p = p) (hget : dbGet s p = some pe)
    (hty : pe.type = EType.file) :
    fdLoad s p = match pe.content with | some c => c | none => [] := by
  have hres : resolveSymlink s p false = .ok (p, some pe) := by
    have := resolveSymlink_of_entry s false p pe (by rwa [hnrm])
      (by rw [hty]; simp)
    rwa [hnrm] at this
  simp [fdLoad, readFileInternal, hres, hty]

theorem fdToWrite_none (buf : List Nat) : fdToWrite buf none none = buf := rfl

/-- C5: descriptor cursor semantics.  (i) Two `position = null` writes leave
the cursor at its initial value plus the sum of the bytes written by the two
calls.  (ii) A write with an explicit position never changes the descriptor
table.  (iii) When the current content is shorter than `start + writeLength`
the buffer is zero-extended before splicing, and the *entire* resulting
buffer is persisted as one whole-file write. -/
theorem C5_descriptor_cursor :
    (∀ (now1 now2 : Nat) (s : Store) (fds : FdState) (fdNum : Nat)
       (buf1 buf2 : List Nat) (o1 l1 o2 l2 : Option Nat) (f0 : FD)
       (n1 n2 : Nat) (r1 r2 : Res Nat) (fds1 fds2 : FdState),
       lookupFd fds fdNum = some f0 →
       fdWrite now1 s fds fdNum buf1 o1 l1 none = (r1, fds1) →
       fdWrite now2 r1.store fds1 fdNum buf2 o2 l2 none = (r2, fds2) →
       r1.val = .ok n1 → r2.val = .ok n2 →
       lookupFd fds2 fdNum =
         some ⟨f0.path, f0.position + n1 + n2, f0.flags⟩) ∧
    (∀ (now : Nat) (s : Store) (fds : FdState) (fdNum : Nat) (buf : List Nat)
       (offset length : Option Nat) (pos : Nat),
       (fdWrite now s fds fdNum buf offset length (some pos)).2 = fds) ∧
    (∀ (now : Nat) (s : Store) (fds : FdState) (fdNum : Nat) (buf : List Nat)
       (position : Option Nat) (f : FD) (pe : Entry),
       lookupFd fds fdNum = some f → norm f.path = f.path →
       dbGet s f.path = some pe → pe.type = EType.file →
       dirCheck s (parentOf f.path) = .ok () →
       (fdWrite now s fds fdNum buf none none position).1.val =
         .ok buf.length ∧
       (∃ ent,
         dbGet (fdWrite now s fds fdNum buf none none position).1.store
             f.path = some ent ∧
         ent.type = EType.file ∧
         ent.content = some ((pe.content.getD []).take
             (position.getD f.position) ++
           List.replicate (position.getD f.position -
             (pe.content.getD []).length) 0 ++ buf ++
           (pe.content.getD []).drop
             (position.getD f.position + buf.length)) ∧
         ent.size = ((pe.content.getD []).take (position.getD f.position) ++
           List.replicate (position.getD f.position -
             (pe.content.getD []).length) 0 ++ buf ++
           (pe.content.getD []).drop
             (position.getD f.position + buf.length)).length)) := by
  refine ⟨?_, fdWrite_pos_fixed, ?_⟩
  · intro now1 now2 s fds fdNum buf1 buf2 o1 l1 o2 l2 f0 n1 n2 r1 r2
      fds1 fds2 hfd h1 h2 hv1 hv2
    obtain ⟨hn1, hfds1⟩ := fdWrite_none_parts now1 s fds fdNum buf1 o1 l1
      f0 n1 hfd (by rw [h1]; exact hv1)
    have e1 : fds1 = setFdPos fds fdNum (f0.position + n1) := by
      rw [← hfds1, h1]
    have hfd1 : lookupFd fds1 fdNum =
        some { f0 with position := f0.position + n1 } := by
      rw [e1]; exact lookupFd_setFdPos fds fdNum _ f0 hfd
    obtain ⟨hn2, hfds2⟩ := fdWrite_none_parts now2 r1.store fds1 fdNum buf2
      o2 l2 { f0 with position := f0.position + n1 } n2 hfd1
      (by rw [h2]; exact hv2)
    have e2 : fds2 = setFdPos fds1 fdNum (f0.position + n1 + n2) := by
      rw [← hfds2, h2]
    rw [e2]
    exact lookupFd_setFdPos fds1 fdNum _
      { f0 with position := f0.position + n1 } hfd1
  · intro now s fds fdNum buf position f pe hfd hnrm hget hty hchk
    have hload : fdLoad s f.path = pe.content.getD [] := by
      rw [fdLoad_of_file s f.path pe hnrm hget hty]
      cases pe.content <;> rfl
    have hw := writeFileInternal_get now s f.path pe
      (splice (zeroExtend (pe.content.getD [])
        (position.getD f.position + buf.length)) (position.getD f.position)
        buf) hnrm hget (by rw [hty]; simp) hchk
    simp only [fdWrite, hfd, hload, fdToWrite_none, Option.getD_none]
    have hrange : ¬ (zeroExtend (pe.content.getD [])
        (position.getD f.position + buf.length)).length <
        position.getD f.position + buf.length := by
      rw [zeroExtend_length]; omega
    rw [if_neg hrange]
    cases hwv : (writeFileInternal now s f.path
        (splice (zeroExtend (pe.content.getD [])
          (position.getD f.position + buf.length))
          (position.getD f.position) buf)).val with
    | error e => rw [hwv] at hw; exact absurd hw.1 (by simp)
    | ok u =>
      refine ⟨rfl, ?_⟩
      refine ⟨_, hw.2, rfl, ?_, ?_⟩
      · simp only [Entry.content]
        rw [splice_zeroExtend]
      · simp only [Entry.size]
        rw [splice_zeroExtend]

theorem C5_witness :
    lookupFd (fdWrite 2 (fdWrite 1 [rootEntry, fileEntry "/a".toList [9] 1]
        ⟨[(3, ⟨"/a".toList, 0, "w".toList⟩)], 4⟩ 3 [1, 2] none none
        none).1.store
      (fdWrite 1 [rootEntry, fileEntry "/a".toList [9] 1]
        ⟨[(3, ⟨"/a".toList, 0, "w".toList⟩)], 4⟩ 3 [1, 2] none none
        none).2 3 [3] none none none).2 3 =
      some ⟨"/a".toList, 0 + 2 + 1, "w".toList⟩ ∧
    (fdWrite 5 [rootEntry, fileEntry "/a".toList [9] 1]
      ⟨[(3, ⟨"/a".toList, 0, "w".toList⟩)], 4⟩ 3 [7] none none
      (some 4)).2 = ⟨[(3, ⟨"/a".toList, 0, "w".toList⟩)], 4⟩ ∧
    (fdWrite 5 [rootEntry, fileEntry "/a".toList [9] 1]
      ⟨[(3, ⟨"/a".toList, 0, "w".toList⟩)], 4⟩ 3 [7] none none
      (some 4)).1.val = .ok 1 := by
  refine ⟨?_, ?_, by decide⟩
  · exact C5_descriptor_cursor.1 1 2 [rootEntry, fileEntry "/a".toList [9] 1]
      ⟨[(3, ⟨"/a".toList, 0, "w".toList⟩)], 4⟩ 3 [1, 2] [3] none none none
      none ⟨"/a".toList, 0, "w".toList⟩ 2 1 _ _ _ _ (by decide) rfl rfl
      (by decide) (by decide)
  · exact C5_descriptor_cursor.2.1 5 [rootEntry, fileEntry "/a".toList [9] 1]
      ⟨[(3, ⟨"/a".toList, 0, "w".toList⟩)], 4⟩ 3 [7] none none 4

/-! # Hard-link groups (C1) -/

theorem mem_dbPut_self (s : Store) (e : Entry) : e ∈ dbPut s e := by
  induction s with
  | nil => simp [dbPut]
  | cons x s ih =>
    by_cases hx : x.path = e.path
    · simp [dbPut, hx]
    · simp only [dbPut, if_neg hx]
      exact List.mem_cons_of_mem x ih

theorem mem_dbPut_of_ne {s : Store} {y : Entry} (e : Entry)
    (hy : y ∈ s) (hne : y.path ≠ e.path) : y ∈ dbPut s e := by
  induction s with
  | nil => simp at hy
  | cons x s ih =>
    rcases List.mem_cons.mp hy with rfl | hmem
    · simp only [dbPut]
      split
      · next hx => exact absurd hx hne
      · exact List.mem_cons_self _ _
    · simp only [dbPut]
      split
      · exact List.mem_cons_of_mem _ hmem
      · exact List.mem_cons_of_mem x (ih hmem)

theorem mem_of_mem_dbPut {s : Store} {e y : Entry}
    (hy : y ∈ dbPut s e) : y = e ∨ y ∈ s := by
  induction s with
  | nil => simpa [dbPut] using hy
  | cons x s ih =>
    simp only [dbPut] at hy
    split at hy
    · rcases List.mem_cons.mp hy with rfl | hmem
      · exact .inl rfl
      · exact .inr (List.mem_cons_of_mem x hmem)
    · rcases List.mem_cons.mp hy with rfl | hmem
      · exact .inr (List.mem_cons_self _ _)
      · rcases ih hmem with h | h
        · exact .inl h
        · exact .inr (List.mem_cons_of_mem x h)

theorem uniquePaths_dbPut (s : Store) (e : Entry) (h : uniquePaths s) :
    uniquePaths (dbPut s e) := by
  induction s with
  | nil => simp [dbPut, uniquePaths]
  | cons x s ih =>
    have hx1 := (List.pairwise_cons.mp h).1
    have hx2 := (List.pairwise_cons.mp h).2
    by_cases hx : x.path = e.path
    · simp only [dbPut, if_pos hx]
      exact List.pairwise_cons.mpr
        ⟨fun y hy => hx ▸ hx1 y hy, hx2⟩
    · simp only [dbPut, if_neg hx]
      refine List.pairwise_cons.mpr ⟨fun y hy => ?_, ih hx2⟩
      rcases mem_of_mem_dbPut hy with rfl | hmem
      · exact hx
      · exact hx1 y hmem

theorem dbPut_append_of_missing (s : Store) (e : Entry)
    (h : dbGet s e.path = none) : dbPut s e = s ++ [e] := by
  induction s with
  | nil => rfl
  | cons x s ih =>
    simp only [dbGet] at h
    by_cases hx : x.path = e.path
    · rw [if_pos hx] at h
      exact absurd h (by simp)
    · rw [if_neg hx] at h
      simp only [dbPut, if_neg hx, List.cons_append, ih h]

theorem countP_dbPut_of_all_false (s : Store) (e : Entry) (P : Entry → Bool)
    (h : ∀ x ∈ s, P x = false) :
    (dbPut s e).countP P = if P e then 1 else 0 := by
  induction s with
  | nil => simp [dbPut, List.countP_cons]
  | cons x s ih =>
    by_cases hx : x.path = e.path
    · simp only [dbPut, if_pos hx, List.countP_cons]
      rw [List.countP_eq_zero.mpr
        (fun a ha => by simp [h a (List.mem_cons_of_mem x ha)])]
      split <;> simp
    · simp only [dbPut, if_neg hx, List.countP_cons,
        h x (List.mem_cons_self x s),
        ih (fun a ha => h a (List.mem_cons_of_mem x ha))]
      simp

theorem countP_path_unique (l : List Entry) (e : Entry) (P : Entry → Bool)
    (hpw : l.Pairwise (fun a b => a.path ≠ b.path)) (he : e ∈ l)
    (hPe : P e = true) :
    l.countP (fun x => decide (x.path = e.path) && P x) = 1 := by
  induction l with
  | nil => simp at he
  | cons a l ih =>
    have h1 := (List.pairwise_cons.mp hpw).1
    have h2 := (List.pairwise_cons.mp hpw).2
    rcases List.mem_cons.mp he with rfl | hmem
    · rw [List.countP_cons]
      rw [List.countP_eq_zero.mpr (fun x hx => by
        simp only [Bool.and_eq_true, decide_eq_true_eq, not_and]
        intro hc
        exact fun _ => h1 x hx hc.symm)]
      simp [hPe]
    · rw [List.countP_cons]
      have hne : a.path ≠ e.path := h1 e hmem
      rw [if_neg (by simp [hne])]
      simpa using ih h2 hmem

theorem propagate_get_notin (now : Nat) (entry : Entry) :
    ∀ (sibs : List Entry) (t : Store) (q : Path),
      (∀ sib ∈ sibs, sib.path ≠ q) →
      dbGet (propagate now entry sibs t).1 q = dbGet t q := by
  intro sibs
  induction sibs with
  | nil => intro t q _; rfl
  | cons sib rest ih =>
    intro t q hq
    have hq1 := hq sib (List.mem_cons_self _ _)
    have hq2 := fun x hx => hq x (List.mem_cons_of_mem _ hx)
    by_cases h1 : sib.path = entry.path
    · simp only [propagate, if_pos h1]
      exact ih t q hq2
    · simp only [propagate, if_neg h1]
      by_cases h2 : sib.type ≠ EType.file
      · rw [if_pos h2]
        exact ih t q hq2
      · rw [if_neg h2]
        dsimp only
        rw [ih _ q hq2, dbGet_dbPut_ne]
        exact fun hc => hq1 hc.symm

/-- Each qualifying sibling ends up with the written content, size, mime
type and modification time. -/
theorem propagate_get_mem (now : Nat) (entry : Entry) :
    ∀ (sibs : List Entry) (t : Store) (e : Entry),
      e ∈ sibs → e.path ≠ entry.path → e.type = EType.file →
      sibs.Pairwise (fun a b => a.path ≠ b.path) →
      dbGet (propagate now entry sibs t).1 e.path =
        some { e with size := entry.size, content := entry.content,
                      mimeType := entry.mimeType, modifiedAt := now } := by
  intro sibs
  induction sibs with
  | nil => intro t e he; simp at he
  | cons sib rest ih =>
    intro t e he hne hty hpw
    have h1 := (List.pairwise_cons.mp hpw).1
    have h2 := (List.pairwise_cons.mp hpw).2
    rcases List.mem_cons.mp he with rfl | hmem
    · simp only [propagate, if_neg hne, if_neg (not_not_intro hty)]
      rw [propagate_get_notin now entry rest _ e.path
        (fun x hx hc => h1 x hx hc.symm)]
      exact dbGet_dbPut_self t _
    · by_cases hs1 : sib.path = entry.path
      · simp only [propagate, if_pos hs1]
        exact ih t e hmem hne hty h2
      · simp only [propagate, if_neg hs1]
        by_cases hs2 : sib.type ≠ EType.file
        · rw [if_pos hs2]
          exact ih t e hmem hne hty h2
        · rw [if_neg hs2]
          dsimp only
          exact ih _ e hmem hne hty h2

/-- Each qualifying sibling gets a change event carrying its old and new
snapshots. -/
theorem propagate_event_mem (now : Nat) (entry : Entry) :
    ∀ (sibs : List Entry) (t : Store) (e : Entry),
      e ∈ sibs → e.path ≠ entry.path → e.type = EType.file →
      (⟨e.path, WType.change, some e,
        some { e with size := entry.size, content := entry.content,
                      mimeType := entry.mimeType, modifiedAt := now }⟩ :
          WEvent) ∈ (propagate now entry sibs t).2 := by
  intro sibs
  induction sibs with
  | nil => intro t e he; simp at he
  | cons sib rest ih =>
    intro t e he hne hty
    rcases List.mem_cons.mp he with rfl | hmem
    · simp only [propagate, if_neg hne, if_neg (not_not_intro hty)]
      exact List.mem_cons_self _ _
    · by_cases hs1 : sib.path = entry.path
      · simp only [propagate, if_pos hs1]
        exact ih t e hmem hne hty
      · simp only [propagate, if_neg hs1]
        by_cases hs2 : sib.type ≠ EType.file
        · rw [if_pos hs2]
          exact ih t e hmem hne hty
        · rw [if_neg hs2]
          exact List.mem_cons_of_mem _ (ih _ e hmem hne hty)

/-- The propagation loop emits exactly one event per qualifying sibling. -/
theorem propagate_events_count (now : Nat) (entry : Entry) :
    ∀ (sibs : List Entry) (t : Store) (q : Path),
      ((propagate now entry sibs t).2.countP
        (fun ev => decide (ev.path = q))) =
      sibs.countP (fun sib => decide (sib.path = q) &&
        (decide (sib.path ≠ entry.path) && decide (sib.type = EType.file))) := by
  intro sibs
  induction sibs with
  | nil => intro t q; rfl
  | cons sib rest ih =>
    intro t q
    simp only [propagate]
    by_cases hs1 : sib.path = entry.path
    · rw [if_pos hs1, ih, List.countP_cons]
      have h0 : decide (sib.path ≠ entry.path) = false := by simpa using hs1
      simp [h0]
    · rw [if_neg hs1]
      by_cases hs2 : sib.type ≠ EType.file
      · rw [if_pos hs2, ih, List.countP_cons]
        have h0 : decide (sib.type = EType.file) = false := by simpa using hs2
        simp [h0]
      · rw [if_neg hs2]
        dsimp only
        rw [List.countP_cons, List.countP_cons, ih]
        have hf : decide (sib.type = EType.file) = true := by simpa using hs2
        have hn : decide (sib.path ≠ entry.path) = true := by simpa using hs1
        simp [hf, hn]
theorem nlink_count (t : Store) (k : Path) :
    ((getByHardLinkKey t k).filter
      (fun x => decide (x.type = EType.file))).length =
    t.countP (fun x => decide (x.hardLinkKey = some k) &&
      decide (x.type = EType.file)) := by
  rw [getByHardLinkKey, List.filter_filter, List.countP_eq_length_filter]
  rw [show (fun (a : Entry) => decide (a.type = EType.file) &&
      decide (a.hardLinkKey = some k)) = fun a =>
      decide (a.hardLinkKey = some k) && decide (a.type = EType.file) from
    funext (fun a => Bool.and_comm _ _)]

/-- A write to a file carrying a truthy hard-link key updates every other
file sharing the key (content, size, mime type, modification time) and
emits exactly one change notification for that sibling's path. -/
theorem writeFileInternal_propagates (now : Nat) (s : Store) (p : Path)
    (pe : Entry) (data : List Nat) (k : Path)
    (hu : uniquePaths s) (hnrm : norm p = p) (hget : dbGet s p = some pe)
    (hty : pe.type ≠ EType.symlink) (hkey : jsStr pe.hardLinkKey = some k)
    (hchk : dirCheck s (parentOf p) = .ok ())
    (e : Entry) (he : e ∈ s) (hep : e.path ≠ p)
    (hek : e.hardLinkKey = some k) (hef : e.type = EType.file) :
    (writeFileInternal now s p data).val = .ok () ∧
    dbGet (writeFileInternal now s p data).store e.path =
      some { e with size := data.length, content := some data,
                    mimeType := some octetStream, modifiedAt := now } ∧
    (writeFileInternal now s p data).events.countP
      (fun ev => decide (ev.path = e.path)) = 1 ∧
    (⟨e.path, WType.change, some e,
      some { e with size := data.length, content := some data,
                    mimeType := some octetStream, modifiedAt := now }⟩ :
        WEvent) ∈ (writeFileInternal now s p data).events := by
  have hres : resolveSymlink s p true = .ok (p, some pe) := by
    have := resolveSymlink_of_entry s true p pe (by rwa [hnrm]) hty
    rwa [hnrm] at this
  have hkey2 : jsStr ((some pe).bind (fun a => a.hardLinkKey)) = some k := hkey
  simp only [writeFileInternal, hres, hnrm, hchk, hget, hkey2]
  have hmem1 : e ∈ dbPut s
      { path := p, name := baseOf p, type := EType.file,
        size := data.length, content := some data,
        mimeType := some octetStream, linkTarget := none,
        hardLinkKey := (some pe).bind (fun a => a.hardLinkKey),
        createdAt := jsOrNat (Option.map (fun x => x.createdAt) (some pe)) now,
        modifiedAt := now, parentPath := parentOf p } :=
    mem_dbPut_of_ne _ he hep
  have hmemsib : e ∈ getByHardLinkKey (dbPut s
      { path := p, name := baseOf p, type := EType.file,
        size := data.length, content := some data,
        mimeType := some octetStream, linkTarget := none,
        hardLinkKey := (some pe).bind (fun a => a.hardLinkKey),
        createdAt := jsOrNat (Option.map (fun x => x.createdAt) (some pe)) now,
        modifiedAt := now, parentPath := parentOf p }) k :=
    List.mem_filter.mpr ⟨hmem1, by simp [hek]⟩
  have hpw : (getByHardLinkKey (dbPut s
      { path := p, name := baseOf p, type := EType.file,
        size := data.length, content := some data,
        mimeType := some octetStream, linkTarget := none,
        hardLinkKey := (some pe).bind (fun a => a.hardLinkKey),
        createdAt := jsOrNat (Option.map (fun x => x.createdAt) (some pe)) now,
        modifiedAt := now, parentPath := parentOf p }) k).Pairwise
      (fun a b => a.path ≠ b.path) :=
    (uniquePaths_dbPut s _ hu).filter _
  refine ⟨trivial, ?_, ?_, ?_⟩
  · exact propagate_get_mem now _ _ _ e hmemsib hep hef hpw
  · rw [List.countP_cons]
    rw [if_neg (by simp; exact fun hc => hep hc.symm)]
    rw [propagate_events_count]
    simpa using countP_path_unique _ e
      (fun x => decide (x.path ≠ p) && decide (x.type = EType.file))
      hpw hmemsib (by simp [hep, hef])
  · exact List.mem_cons_of_mem _
      (propagate_event_mem now _ _ _ e hmemsib hep hef)

/-- C1: hard-link group consistency.  Part 1, the scenario: starting from
any store where `/a/b.txt` is a file with no hard-link group, `/a/c.txt` is
absent, `/a` is a directory and no entry carries the group key `/a/b.txt`,
`link('/a/b.txt','/a/c.txt')` succeeds, both link counts become 2, and a
subsequent write of `data` to `/a/c.txt` succeeds and makes
`read('/a/b.txt')` return exactly `data`.  Part 2, in general: a write to a
file carrying a truthy `hardLinkGroup` key updates the `content`, `size`,
`mimeType` and `modifiedAt` of every other file sharing that key, emitting
exactly one change notification per sibling path. -/
theorem C1_hard_link_group_consistency :
    (∀ (now1 now2 : Nat) (s : Store) (fb da : Entry) (data : List Nat),
       uniquePaths s →
       dbGet s bTxt = some fb → fb.type = EType.file →
       fb.hardLinkKey = none →
       dbGet s cTxt = none →
       dbGet s aDir = some da → da.type = EType.directory →
       (∀ e ∈ s, e.hardLinkKey ≠ some bTxt) →
       (link now1 s bTxt cTxt).val = .ok () ∧
       nlink (link now1 s bTxt cTxt).store bTxt = .ok 2 ∧
       nlink (link now1 s bTxt cTxt).store cTxt = .ok 2 ∧
       (writeFileInternal now2 (link now1 s bTxt cTxt).store cTxt
         data).val = .ok () ∧
       readFileInternal
         (writeFileInternal now2 (link now1 s bTxt cTxt).store cTxt
           data).store bTxt = .ok data) ∧
    (∀ (now : Nat) (s : Store) (p : Path) (pe : Entry) (data : List Nat)
       (k : Path),
       uniquePaths s → norm p = p → dbGet s p = some pe →
       pe.type ≠ EType.symlink → jsStr pe.hardLinkKey = some k →
       dirCheck s (parentOf p) = .ok () →
       ∀ e ∈ s, e.path ≠ p → e.hardLinkKey = some k →
         e.type = EType.file →
         dbGet (writeFileInternal now s p data).store e.path =
           some { e with size := data.length, content := some data,
                         mimeType := some octetStream, modifiedAt := now } ∧
         (writeFileInternal now s p data).events.countP
           (fun ev => decide (ev.path = e.path)) = 1 ∧
         (⟨e.path, WType.change, some e,
           some { e with size := data.length, content := some data,
                         mimeType := some octetStream,
                         modifiedAt := now }⟩ : WEvent) ∈
           (writeFileInternal now s p data).events) := by
  constructor
  · intro now1 now2 s fb da data hu hb hbty hbkey hc hga hday hnokey
    have hfbp : fb.path = bTxt := dbGet_path hb
    have hnb : norm bTxt = bTxt := by decide
    have hnc : norm cTxt = cTxt := by decide
    have hres : resolveSymlink s bTxt false = .ok (bTxt, some fb) := by
      have := resolveSymlink_of_entry s false bTxt fb (by rwa [hnb])
        (by rw [hbty]; simp)
      rwa [hnb] at this
    have hchkc : dirCheck s (parentOf cTxt) = .ok () := by
      rw [show parentOf cTxt = aDir from by decide]
      simp only [dirCheck, if_neg (show ¬(aDir = []) from by decide), hga,
        if_pos hday]
    have hjs : jsStr fb.hardLinkKey = none := by rw [hbkey]; rfl
    have hlink : link now1 s bTxt cTxt =
        ⟨linkedStore s fb now1,
         [⟨cTxt, WType.rename, none, some (linkedEntry fb now1)⟩],
         .ok ()⟩ := by
      simp only [link, hnb, hnc, hres, if_neg (not_not_intro hbty), hchkc,
        hc, hjs, Option.isNone_none, if_true, linkedStore, linkedEntry,
        keyedEntry]
    rw [hlink]
    have hgB : dbGet (linkedStore s fb now1) bTxt = some (keyedEntry fb) := by
      rw [linkedStore,
        dbGet_dbPut_ne _ _ (show bTxt ≠ cTxt from by decide), ← hfbp]
      exact dbGet_dbPut_self s _
    have hgC : dbGet (linkedStore s fb now1) cTxt =
        some (linkedEntry fb now1) :=
      dbGet_dbPut_self _ _
    have hjs1 : jsStr (some fb.path) = some fb.path := by
      rw [hfbp]; decide
    have hcount : (linkedStore s fb now1).countP
        (fun x => decide (x.hardLinkKey = some fb.path) &&
          decide (x.type = EType.file)) = 2 := by
      have hmiss : dbGet (dbPut s (keyedEntry fb)) cTxt = none := by
        rw [dbGet_dbPut_ne _ _
          (show cTxt ≠ (keyedEntry fb).path from by
            rw [show (keyedEntry fb).path = fb.path from rfl, hfbp]; decide)]
        exact hc
      rw [linkedStore, dbPut_append_of_missing _ _ hmiss, List.countP_append]
      rw [countP_dbPut_of_all_false s _ _
        (fun x hx => by simp [hfbp, hnokey x hx])]
      simp [keyedEntry, linkedEntry, hbty]
    have hresB : resolveSymlink (linkedStore s fb now1) bTxt false =
        .ok (bTxt, some (keyedEntry fb)) := by
      have := resolveSymlink_of_entry _ false bTxt (keyedEntry fb)
        (by rwa [hnb])
        (show (keyedEntry fb).type ≠ EType.symlink from by
          rw [show (keyedEntry fb).type = fb.type from rfl, hbty]; simp)
      rwa [hnb] at this
    have hresC : resolveSymlink (linkedStore s fb now1) cTxt false =
        .ok (cTxt, some (linkedEntry fb now1)) := by
      have := resolveSymlink_of_entry _ false cTxt (linkedEntry fb now1)
        (by rwa [hnc]) (by simp [linkedEntry])
      rwa [hnc] at this
    have hchkL : dirCheck (linkedStore s fb now1) (parentOf cTxt) =
        .ok () := by
      rw [show parentOf cTxt = aDir from by decide]
      rw [linkedStore]
      have hne1 : aDir ≠ (linkedEntry fb now1).path := by
        rw [show (linkedEntry fb now1).path = cTxt from rfl]; decide
      have hne2 : aDir ≠ (keyedEntry fb).path := by
        rw [show (keyedEntry fb).path = fb.path from rfl, hfbp]; decide
      simp only [dirCheck, if_neg (show ¬(aDir = []) from by decide),
        dbGet_dbPut_ne _ _ hne1, dbGet_dbPut_ne _ _ hne2,
        hga, if_pos hday]
    refine ⟨rfl, ?_, ?_, ?_, ?_⟩
    · simp only [nlink, hresB]
      rw [if_neg (show ¬((keyedEntry fb).type ≠ EType.file) from
        not_not_intro (by rw [show (keyedEntry fb).type = fb.type from rfl,
          hbty]))]
      simp only [show (keyedEntry fb).hardLinkKey = some fb.path from rfl,
        hjs1, nlink_count, hcount]
    · simp only [nlink, hresC]
      rw [if_neg (by simp [linkedEntry])]
      simp only [show (linkedEntry fb now1).hardLinkKey = some fb.path
        from rfl, hjs1, nlink_count, hcount]
    · exact (writeFileInternal_get now2 _ cTxt _ data hnc hgC
        (by simp [linkedEntry]) hchkL).1
    · have hprop := writeFileInternal_propagates now2 _ cTxt _ data fb.path
        (uniquePaths_dbPut _ _ (uniquePaths_dbPut _ _ hu)) hnc hgC
        (by simp [linkedEntry])
        (show jsStr (linkedEntry fb now1).hardLinkKey = some fb.path from
          hjs1)
        hchkL (keyedEntry fb)
        (mem_dbPut_of_ne _ (mem_dbPut_self s _)
          (show fb.path ≠ cTxt from by rw [hfbp]; decide))
        (show fb.path ≠ cTxt from by rw [hfbp]; decide) rfl hbty
      have hup : dbGet (writeFileInternal now2 (linkedStore s fb now1)
          cTxt data).store bTxt =
          some (propagatedEntry fb data now2) := by
        rw [← hfbp]
        exact hprop.2.1
      have hresUp : resolveSymlink (writeFileInternal now2
          (linkedStore s fb now1) cTxt data).store bTxt false =
          .ok (bTxt, some (propagatedEntry fb data now2)) := by
        have := resolveSymlink_of_entry _ false bTxt
          (propagatedEntry fb data now2) (by rwa [hnb])
          (show (propagatedEntry fb data now2).type ≠ EType.symlink from by
            rw [show (propagatedEntry fb data now2).type = fb.type from rfl,
              hbty]
            simp)
        rwa [hnb] at this
      simp only [readFileInternal, hresUp]
      rw [if_neg (show ¬((propagatedEntry fb data now2).type ≠ EType.file)
        from not_not_intro (by
          rw [show (propagatedEntry fb data now2).type = fb.type from rfl,
            hbty]))]
      rfl
  · intro now s p pe data k hu hnrm hget hty hkey hchk e he hep hek hef
    exact (writeFileInternal_propagates now s p pe data k hu hnrm hget hty
      hkey hchk e he hep hek hef).2

/-- Witness for C1 at a concrete store: root, directory `/a`, file
`/a/b.txt` with bytes [104, 105]; link to `/a/c.txt`, write [120] through
the new name, read the old name. -/
theorem C1_witness :
    (link 5 [rootEntry, dirEntry aDir 1, fileEntry bTxt [104, 105] 1]
      bTxt cTxt).val = .ok () ∧
    nlink (link 5 [rootEntry, dirEntry aDir 1, fileEntry bTxt [104, 105] 1]
      bTxt cTxt).store bTxt = .ok 2 ∧
    nlink (link 5 [rootEntry, dirEntry aDir 1, fileEntry bTxt [104, 105] 1]
      bTxt cTxt).store cTxt = .ok 2 ∧
    (writeFileInternal 6
      (link 5 [rootEntry, dirEntry aDir 1, fileEntry bTxt [104, 105] 1]
        bTxt cTxt).store cTxt [120]).val = .ok () ∧
    readFileInternal
      (writeFileInternal 6
        (link 5 [rootEntry, dirEntry aDir 1, fileEntry bTxt [104, 105] 1]
          bTxt cTxt).store cTxt [120]).store bTxt = .ok [120] :=
  C1_hard_link_group_consistency.1 5 6
    [rootEntry, dirEntry aDir 1, fileEntry bTxt [104, 105] 1]
    (fileEntry bTxt [104, 105] 1) (dirEntry aDir 1) [120]
    (by decide) (by decide) rfl rfl (by decide) (by decide) rfl (by decide)

/-- One-step unfolding of `renameInternal` that leaves the recursive calls
of the children loop folded. -/
theorem renameInternal_succ (now fuel : Nat) (s : Store)
    (oldPath0 newPath0 : Path) :
    renameInternal now (fuel + 1) s oldPath0 newPath0 =
    (let oldPath := norm oldPath0
     let newPath := norm newPath0
     if oldPath = rootPath then ⟨s, [], .error .exdev⟩
     else
       match dbGet s oldPath with
       | none => ⟨s, [], .error .enoent⟩
       | some entry =>
         let destParent := parentOf newPath
         match dirCheck s destParent with
         | .error e => ⟨s, [], .error e⟩
         | .ok _ =>
           let moved : Entry :=
             { entry with path := newPath, name := baseOf newPath,
                          modifiedAt := now, parentPath := destParent }
           let s1 := dbDelete (dbPut s moved) oldPath
           let step :=
             if entry.type = .directory then
               renChildren (fun t a b => renameInternal now fuel t a b)
                 oldPath newPath (getByParentPath s1 oldPath) s1
             else ⟨s1, [], .ok ()⟩
           emitAfter step ⟨oldPath, WType.rename, some entry, some moved⟩) :=
  rfl

/-- C3: renaming directory `/a` to `/z` over any store in which `/a` is a
directory whose only child is the file `/a/b.txt` (and `/z` is absent)
succeeds, moves the child to `/z/b.txt` with its content intact, removes
`/a` and `/a/b.txt`, and leaves every other path - in particular an
unrelated sibling such as `/foobar` - exactly as it was. -/
theorem C3_rename_subtree (now : Nat) (s : Store) (rt da fb : Entry)
    (h1 : dbGet s rootPath = some rt) (h2 : rt.type = EType.directory)
    (h3 : dbGet s aDir = some da) (h4 : da.type = EType.directory)
    (h5 : dbGet s bTxt = some fb) (h6 : fb.type = EType.file)
    (h7 : getByParentPath s aDir = [fb])
    (h8 : dbGet s zDir = none) :
    (rename now s aDir zDir).val = .ok () ∧
    dbGet (rename now s aDir zDir).store zbTxt = some (movedB3 fb now) ∧
    (movedB3 fb now).content = fb.content ∧
    dbGet (rename now s aDir zDir).store aDir = none ∧
    dbGet (rename now s aDir zDir).store bTxt = none ∧
    ∀ q : Path, q ≠ aDir → q ≠ bTxt → q ≠ zDir → q ≠ zbTxt →
      dbGet (rename now s aDir zDir).store q = dbGet s q := by
  have hfbp : fb.path = bTxt := dbGet_path h5
  obtain ⟨k, hk⟩ : ∃ k, s.length = k + 1 := by
    cases s with
    | nil => simp [dbGet] at h3
    | cons x t => exact ⟨t.length, rfl⟩
  have hn1 : norm aDir = aDir := by decide
  have hn2 : norm zDir = zDir := by decide
  have hn3 : norm bTxt = bTxt := by decide
  have hn4 : norm zbTxt = zbTxt := by decide
  have hp1 : parentOf zDir = rootPath := by decide
  have hp2 : parentOf zbTxt = zDir := by decide
  have hchk1 : dirCheck s rootPath = .ok () := by
    simp only [dirCheck, if_neg (show ¬(rootPath = []) from by decide), h1,
      if_pos h2]
  have hputA : dbPut s (movedA3 da now) = s ++ [movedA3 da now] := by
    apply dbPut_append_of_missing
    rw [show (movedA3 da now).path = zDir from rfl]
    exact h8
  have hs1 : dbDelete (dbPut s (movedA3 da now)) aDir =
      dbDelete s aDir ++ [movedA3 da now] := by
    rw [hputA, dbDelete_append]
    have hne : (movedA3 da now).path ≠ aDir := by
      rw [show (movedA3 da now).path = zDir from rfl]; decide
    simp [dbDelete, hne]
  have hch1 : getByParentPath (dbDelete (dbPut s (movedA3 da now)) aDir) aDir
      = [fb] := by
    rw [hs1, getByParentPath_append, getByParentPath_dbDelete, h7]
    have hppA : (movedA3 da now).parentPath ≠ aDir := by
      rw [show (movedA3 da now).parentPath = rootPath from rfl]; decide
    have hfbne : fb.path ≠ aDir := by rw [hfbp]; decide
    simp [getByParentPath, dbDelete, hppA, hfbne]
  have hgB1 : dbGet (dbDelete (dbPut s (movedA3 da now)) aDir) bTxt =
      some fb := by
    rw [hs1]
    exact dbGet_append_some _ (by
      rw [dbGet_dbDelete_ne s (show bTxt ≠ aDir from by decide)]
      exact h5)
  have hgZ1 : dbGet (dbDelete (dbPut s (movedA3 da now)) aDir) zDir =
      some (movedA3 da now) := by
    rw [hs1]
    rw [dbGet_append_none _ (by
      rw [dbGet_dbDelete_ne s (show zDir ≠ aDir from by decide)]
      exact h8)]
    simp [dbGet, movedA3]
  have hchk2 : dirCheck (dbDelete (dbPut s (movedA3 da now)) aDir) zDir =
      .ok () := by
    simp only [dirCheck, if_neg (show ¬(zDir = []) from by decide), hgZ1,
      if_pos (show (movedA3 da now).type = EType.directory from h4)]
  have hlitB : ({ fb with
                    path := zbTxt
                    name := baseOf zbTxt
                    modifiedAt := now
                    parentPath := zDir } : Entry) = movedB3 fb now := rfl
  have hinner : renameInternal now (k + 1)
      (dbDelete (dbPut s (movedA3 da now)) aDir) bTxt zbTxt =
      ⟨dbDelete (dbPut (dbDelete (dbPut s (movedA3 da now)) aDir)
          (movedB3 fb now)) bTxt,
       [⟨bTxt, WType.rename, some fb, some (movedB3 fb now)⟩], .ok ()⟩ := by
    rw [renameInternal_succ]
    simp only [hn3, hn4, if_neg (show ¬(bTxt = rootPath) from by decide),
      hgB1, hp2, hchk2,
      if_neg (show ¬(fb.type = EType.directory) from by rw [h6]; decide),
      hlitB, emitAfter, List.nil_append]
  have hlitA : ({ da with
                    path := zDir
                    name := baseOf zDir
                    modifiedAt := now
                    parentPath := rootPath } : Entry) =
      movedA3 da now := rfl
  have hzb : zDir ++ List.drop aDir.length bTxt = zbTxt := by decide
  have hmain : rename now s aDir zDir =
      ⟨dbDelete (dbPut (dbDelete (dbPut s (movedA3 da now)) aDir)
          (movedB3 fb now)) bTxt,
       [⟨bTxt, WType.rename, some fb, some (movedB3 fb now)⟩,
        ⟨aDir, WType.rename, some da, some (movedA3 da now)⟩], .ok ()⟩ := by
    rw [rename, hk, renameInternal_succ]
    simp only [hn1, hn2, if_neg (show ¬(aDir = rootPath) from by decide),
      h3, hp1, hchk1, if_pos h4, hlitA, hch1, renChildren, hfbp, hzb,
      hinner, seqRes, emitAfter, List.append_nil, List.nil_append,
      List.singleton_append]
  refine ⟨by rw [hmain], ?_, rfl, ?_, ?_, ?_⟩
  · rw [hmain]
    show dbGet (dbDelete (dbPut (dbDelete (dbPut s (movedA3 da now)) aDir)
      (movedB3 fb now)) bTxt) zbTxt = some (movedB3 fb now)
    rw [dbGet_dbDelete_ne _ (show zbTxt ≠ bTxt from by decide)]
    rw [show zbTxt = (movedB3 fb now).path from rfl]
    exact dbGet_dbPut_self _ _
  · rw [hmain]
    show dbGet (dbDelete (dbPut (dbDelete (dbPut s (movedA3 da now)) aDir)
      (movedB3 fb now)) bTxt) aDir = none
    rw [dbGet_dbDelete_ne _ (show aDir ≠ bTxt from by decide)]
    rw [dbGet_dbPut_ne _ _ (show aDir ≠ (movedB3 fb now).path from by
      rw [show (movedB3 fb now).path = zbTxt from rfl]; decide)]
    exact dbGet_dbDelete_self _ _
  · rw [hmain]
    exact dbGet_dbDelete_self _ _
  · intro q hqa hqb hqz hqzb
    rw [hmain]
    show dbGet (dbDelete (dbPut (dbDelete (dbPut s (movedA3 da now)) aDir)
      (movedB3 fb now)) bTxt) q = dbGet s q
    rw [dbGet_dbDelete_ne _ hqb]
    rw [dbGet_dbPut_ne _ _ (show q ≠ (movedB3 fb now).path from by
      rw [show (movedB3 fb now).path = zbTxt from rfl]; exact hqzb)]
    rw [dbGet_dbDelete_ne _ hqa]
    rw [dbGet_dbPut_ne _ _ (show q ≠ (movedA3 da now).path from by
      rw [show (movedA3 da now).path = zDir from rfl]; exact hqz)]

/-- Witness for C3: root, directory `/a`, file `/a/b.txt` with bytes
[104, 105]; rename `/a` to `/z` and check the re-pathed child, the removed
old paths and an untouched sibling query. -/
theorem C3_witness :
    ((rename 7 [rootEntry, dirEntry aDir 1, fileEntry bTxt [104, 105] 1]
        aDir zDir).val = .ok () ∧
     dbGet (rename 7 [rootEntry, dirEntry aDir 1,
        fileEntry bTxt [104, 105] 1] aDir zDir).store zbTxt =
       some (movedB3 (fileEntry bTxt [104, 105] 1) 7) ∧
     (movedB3 (fileEntry bTxt [104, 105] 1) 7).content =
       (fileEntry bTxt [104, 105] 1).content ∧
     dbGet (rename 7 [rootEntry, dirEntry aDir 1,
        fileEntry bTxt [104, 105] 1] aDir zDir).store aDir = none ∧
     dbGet (rename 7 [rootEntry, dirEntry aDir 1,
        fileEntry bTxt [104, 105] 1] aDir zDir).store bTxt = none ∧
     ∀ q : Path, q ≠ aDir → q ≠ bTxt → q ≠ zDir → q ≠ zbTxt →
       dbGet (rename 7 [rootEntry, dirEntry aDir 1,
          fileEntry bTxt [104, 105] 1] aDir zDir).store q =
         dbGet [rootEntry, dirEntry aDir 1,
           fileEntry bTxt [104, 105] 1] q) :=
  C3_rename_subtree 7 [rootEntry, dirEntry aDir 1,
      fileEntry bTxt [104, 105] 1] rootEntry (dirEntry aDir 1)
      (fileEntry bTxt [104, 105] 1)
    (by decide) rfl (by decide) rfl (by decide) rfl (by decide) (by decide)

/-- One-step unfolding of `removeInternal` that leaves the recursive calls
of the children loop folded. -/
theorem removeInternal_succ (now fuel : Nat) (s : Store) (path0 : Path)
    (recursive force : Bool) :
    removeInternal now (fuel + 1) s path0 recursive force =
    (let path := norm path0
     if path = rootPath then ⟨s, [], .error .ebusy⟩
     else
       match dbGet s path with
       | none => if force then ⟨s, [], .ok ()⟩ else ⟨s, [], .error .enoent⟩
       | some entry =>
         let step :=
           if entry.type = .directory then
             let children := getByParentPath s path
             if children ≠ [] ∧ recursive = false then
               ⟨s, [], .error .enotempty⟩
             else
               remChildren (fun t q => removeInternal now fuel t q true force)
                 children s
           else ⟨s, [], .ok ()⟩
         finishRemove step path entry) :=
  rfl

/-- C4: `remove` semantics - a non-empty directory without `recursive`
fails ENOTEMPTY leaving the store untouched; with `recursive` it deletes
the children first and the directory last, emitting one removal
notification (next snapshot absent) per removed path; a missing path is a
no-op under `force` and an ENOENT failure otherwise; the root path always
fails EBUSY. -/
theorem C4_remove_semantics :
    (∀ (now : Nat) (s : Store) (p : Path) (e : Entry) (force : Bool),
       norm p ≠ rootPath → dbGet s (norm p) = some e →
       e.type = EType.directory → getByParentPath s (norm p) ≠ [] →
       rm now s p false force = ⟨s, [], .error .enotempty⟩) ∧
    (∀ (now : Nat) (s : Store) (da fb fc : Entry) (force : Bool),
       dbGet s aDir = some da → da.type = EType.directory →
       dbGet s bTxt = some fb → fb.type = EType.file →
       dbGet s cTxt = some fc → fc.type = EType.file →
       getByParentPath s aDir = [fb, fc] →
       rm now s aDir true force =
         ⟨dbDelete (dbDelete (dbDelete s bTxt) cTxt) aDir,
          [⟨bTxt, WType.rename, some fb, none⟩,
           ⟨cTxt, WType.rename, some fc, none⟩,
           ⟨aDir, WType.rename, some da, none⟩], .ok ()⟩ ∧
       dbGet (rm now s aDir true force).store aDir = none ∧
       dbGet (rm now s aDir true force).store bTxt = none ∧
       dbGet (rm now s aDir true force).store cTxt = none ∧
       (∀ q : Path, q ≠ aDir → q ≠ bTxt → q ≠ cTxt →
         dbGet (rm now s aDir true force).store q = dbGet s q)) ∧
    (∀ (now : Nat) (s : Store) (p : Path) (recursive : Bool),
       norm p ≠ rootPath → dbGet s (norm p) = none →
       rm now s p recursive true = ⟨s, [], .ok ()⟩ ∧
       rm now s p recursive false = ⟨s, [], .error .enoent⟩) ∧
    (∀ (now : Nat) (s : Store) (p : Path) (recursive force : Bool),
       norm p = rootPath →
       rm now s p recursive force = ⟨s, [], .error .ebusy⟩) := by
  refine ⟨?_, ?_, ?_, ?_⟩
  · intro now s p e force hroot hget hty hch
    rw [rm, removeInternal_succ]
    simp only [if_neg hroot, hget, if_pos hty]
    rw [if_pos (And.intro hch trivial)]
    rfl
  · intro now s da fb fc force h3 h4 h5 h6 h5c h6c h7
    have hfbp : fb.path = bTxt := dbGet_path h5
    have hfcp : fc.path = cTxt := dbGet_path h5c
    obtain ⟨k, hk⟩ : ∃ k, s.length = k + 1 := by
      cases s with
      | nil => simp [dbGet] at h3
      | cons x t => exact ⟨t.length, rfl⟩
    have hnA : norm aDir = aDir := by decide
    have hnB : norm bTxt = bTxt := by decide
    have hnC : norm cTxt = cTxt := by decide
    have hremB : removeInternal now (k + 1) s bTxt true force =
        ⟨dbDelete s bTxt, [⟨bTxt, WType.rename, some fb, none⟩],
         .ok ()⟩ := by
      rw [removeInternal_succ]
      simp only [hnB, if_neg (show ¬(bTxt = rootPath) from by decide), h5,
        if_neg (show ¬(fb.type = EType.directory) from by rw [h6]; decide),
        finishRemove, List.nil_append]
    have hgC2 : dbGet (dbDelete s bTxt) cTxt = some fc := by
      rw [dbGet_dbDelete_ne s (show cTxt ≠ bTxt from by decide)]
      exact h5c
    have hremC : removeInternal now (k + 1) (dbDelete s bTxt) cTxt
        true force =
        ⟨dbDelete (dbDelete s bTxt) cTxt,
         [⟨cTxt, WType.rename, some fc, none⟩], .ok ()⟩ := by
      rw [removeInternal_succ]
      simp only [hnC, if_neg (show ¬(cTxt = rootPath) from by decide), hgC2,
        if_neg (show ¬(fc.type = EType.directory) from by rw [h6c]; decide),
        finishRemove, List.nil_append]
    have hmain : rm now s aDir true force =
        ⟨dbDelete (dbDelete (dbDelete s bTxt) cTxt) aDir,
         [⟨bTxt, WType.rename, some fb, none⟩,
          ⟨cTxt, WType.rename, some fc, none⟩,
          ⟨aDir, WType.rename, some da, none⟩], .ok ()⟩ := by
      rw [rm, hk, removeInternal_succ]
      simp only [hnA, if_neg (show ¬(aDir = rootPath) from by decide), h3,
        if_pos h4, h7,
        if_neg (show ¬(([fb, fc] : List Entry) ≠ [] ∧ true = false) from
          fun h => Bool.noConfusion h.2),
        remChildren, hfbp, hfcp, hremB, hremC, seqRes, finishRemove,
        List.nil_append, List.append_nil, List.singleton_append,
        List.cons_append]
    refine ⟨hmain, ?_, ?_, ?_, ?_⟩
    · rw [hmain]
      exact dbGet_dbDelete_self _ _
    · rw [hmain]
      show dbGet (dbDelete (dbDelete (dbDelete s bTxt) cTxt) aDir) bTxt =
        none
      rw [dbGet_dbDelete_ne _ (show bTxt ≠ aDir from by decide),
        dbGet_dbDelete_ne _ (show bTxt ≠ cTxt from by decide)]
      exact dbGet_dbDelete_self _ _
    · rw [hmain]
      show dbGet (dbDelete (dbDelete (dbDelete s bTxt) cTxt) aDir) cTxt =
        none
      rw [dbGet_dbDelete_ne _ (show cTxt ≠ aDir from by decide)]
      exact dbGet_dbDelete_self _ _
    · intro q hqa hqb hqc
      rw [hmain]
      show dbGet (dbDelete (dbDelete (dbDelete s bTxt) cTxt) aDir) q =
        dbGet s q
      rw [dbGet_dbDelete_ne _ hqa, dbGet_dbDelete_ne _ hqc,
        dbGet_dbDelete_ne _ hqb]
  · intro now s p recursive hroot hget
    constructor
    · rw [rm, removeInternal_succ]
      simp only [if_neg hroot, hget]
      rfl
    · rw [rm, removeInternal_succ]
      simp only [if_neg hroot, hget]
      rfl
  · intro now s p recursive force hroot
    rw [rm, removeInternal_succ]
    simp only [if_pos hroot]

/-- Witness for C4 at concrete stores: the four remove behaviours at a
store with root, directory `/a` and files `/a/b.txt`, `/a/c.txt`. -/
theorem C4_witness :
    (rm 7 [rootEntry, dirEntry aDir 1, fileEntry bTxt [104, 105] 1,
        fileEntry cTxt [106] 1] aDir false false =
      ⟨[rootEntry, dirEntry aDir 1, fileEntry bTxt [104, 105] 1,
        fileEntry cTxt [106] 1], [], .error .enotempty⟩) ∧
    (rm 7 [rootEntry, dirEntry aDir 1, fileEntry bTxt [104, 105] 1,
        fileEntry cTxt [106] 1] aDir true false =
      ⟨dbDelete (dbDelete (dbDelete [rootEntry, dirEntry aDir 1,
          fileEntry bTxt [104, 105] 1, fileEntry cTxt [106] 1] bTxt) cTxt)
          aDir,
       [⟨bTxt, WType.rename, some (fileEntry bTxt [104, 105] 1), none⟩,
        ⟨cTxt, WType.rename, some (fileEntry cTxt [106] 1), none⟩,
        ⟨aDir, WType.rename, some (dirEntry aDir 1), none⟩], .ok ()⟩) ∧
    (rm 7 [rootEntry, dirEntry aDir 1, fileEntry bTxt [104, 105] 1,
        fileEntry cTxt [106] 1] ("/nope".toList) true true =
      ⟨[rootEntry, dirEntry aDir 1, fileEntry bTxt [104, 105] 1,
        fileEntry cTxt [106] 1], [], .ok ()⟩) ∧
    (rm 7 [rootEntry, dirEntry aDir 1, fileEntry bTxt [104, 105] 1,
        fileEntry cTxt [106] 1] ("/nope".toList) true false =
      ⟨[rootEntry, dirEntry aDir 1, fileEntry bTxt [104, 105] 1,
        fileEntry cTxt [106] 1], [], .error .enoent⟩) ∧
    (rm 7 [rootEntry, dirEntry aDir 1, fileEntry bTxt [104, 105] 1,
        fileEntry cTxt [106] 1] rootPath true true =
      ⟨[rootEntry, dirEntry aDir 1, fileEntry bTxt [104, 105] 1,
        fileEntry cTxt [106] 1], [], .error .ebusy⟩) :=
  ⟨C4_remove_semantics.1 7 _ aDir (dirEntry aDir 1) false (by decide)
      (by decide) rfl (by decide),
   (C4_remove_semantics.2.1 7 _ (dirEntry aDir 1)
      (fileEntry bTxt [104, 105] 1) (fileEntry cTxt [106] 1) false
      (by decide) rfl (by decide) rfl (by decide) rfl (by decide)).1,
   (C4_remove_semantics.2.2.1 7 _ ("/nope".toList) true (by decide)
      (by decide)).1,
   (C4_remove_semantics.2.2.1 7 _ ("/nope".toList) true (by decide)
      (by decide)).2,
   C4_remove_semantics.2.2.2 7 _ rootPath true true (by decide)⟩

end FsBrowser
